import Mathlib

/-!
Verification development for the Chatterbox TTS API server (`src/app.py`).

The development shallowly embeds the algorithmic core of the server:

* the duration estimator `_estimate_audio_duration`,
* the hierarchical text chunker (`_chunk_text_smartly`,
  `_try_gentle_chunking`, `_aggressive_chunking`, `_split_long_text`,
  `_split_on_clauses`, `_split_on_words`),
* the audio-file concatenation guard (`_concatenate_audio_files`),
* the synthesis call plan of `_generate_audio` (which segment receives the
  optional reference-audio prompt),
* the single-consumer job queue loop (`queue_consumer`), and
* the batch job loop (`_process_batch_job`).

Python strings are modelled as `List Char`; floats are modelled as exact
rationals (every duration in the source is a small integer character count
divided by 12, so binary floating point and exact rational arithmetic agree
on every comparison the source performs); Python exceptions are modelled
with `Except`.  External collaborators (the TTS model, `ffmpeg`) appear only
through their call plans and outcomes, never through their internals.
-/

set_option maxRecDepth 40000
set_option linter.unusedVariables false

/-! ## Python string primitives -/

/-- Characters matched by Python's `\s` (and stripped by `str.strip()`)
for the ASCII texts this development works with. -/
def isPySpace (c : Char) : Bool :=
  c == ' ' || c == '\t' || c == '\n' || c == '\r' || c == '\x0b' || c == '\x0c'

/-- Python `str.strip()`: remove leading and trailing whitespace. -/
def pyStrip (s : List Char) : List Char :=
  ((s.dropWhile isPySpace).reverse.dropWhile isPySpace).reverse

/-- Fuel-driven worker for `collapseWs`.  Each step consumes at least one
character, so fuel equal to the string's length always suffices and the
zero-fuel case is unreachable. -/
def collapseWsGo : Nat → List Char → List Char
  | _, [] => []
  | 0, _ :: _ => []
  | fuel + 1, c :: rest =>
    if isPySpace c then ' ' :: collapseWsGo fuel (rest.dropWhile isPySpace)
    else c :: collapseWsGo fuel rest

/-- Replace every maximal run of whitespace by a single space, exactly as
`re.sub(r'\s+', ' ', s)` does. -/
def collapseWs (s : List Char) : List Char := collapseWsGo s.length s

/-- Fuel-driven worker for `pyWords`; fuel equal to the string's length is
always sufficient. -/
def pyWordsGo : Nat → List Char → List (List Char)
  | _, [] => []
  | 0, _ :: _ => []
  | fuel + 1, c :: rest =>
    if isPySpace c then pyWordsGo fuel rest
    else (c :: rest.takeWhile (fun x => !isPySpace x)) ::
      pyWordsGo fuel (rest.dropWhile (fun x => !isPySpace x))

/-- Python `str.split()` with no argument: the maximal whitespace-free
runs of the string, in order. -/
def pyWords (s : List Char) : List (List Char) := pyWordsGo s.length s

/-- The non-whitespace characters of a string, in order.  Joining segments
with whitespace-normalizing joins preserves exactly this sequence. -/
def letters (s : List Char) : List Char := s.filter (fun c => !isPySpace c)

/-- A non-empty string none of whose characters is whitespace: a single
indivisible word token. -/
def isSingleToken (s : List Char) : Bool := !s.isEmpty && s.all (fun c => !isPySpace c)

/-- Python `re.split(r'\n\s*\n', s)`: split on paragraph separators.  A
separator match starts at a newline; the greedy `\s*` then extends the
match through the last newline of the following whitespace run. -/
def splitParasAuxGo : Nat → List Char → List Char → List (List Char)
  | _, [], acc => [acc.reverse]
  | 0, _ :: _, _ => []
  | fuel + 1, c :: rest, acc =>
    let w := rest.takeWhile isPySpace
    if c = '\n' ∧ '\n' ∈ w then
      let w₁ := (w.reverse.dropWhile (fun x => x != '\n')).reverse
      acc.reverse :: splitParasAuxGo fuel (w.drop w₁.length ++ rest.dropWhile isPySpace) []
    else splitParasAuxGo fuel rest (c :: acc)

/-- Wrapper running the paragraph scanner with its always-sufficient fuel
(each step consumes at least one character). -/
def splitParasAux (s : List Char) (acc : List Char) : List (List Char) :=
  splitParasAuxGo s.length s acc

/-- Paragraph split of the source (`re.split(r'\n\s*\n', text)`). -/
def splitParas (s : List Char) : List (List Char) := splitParasAux s []

/-- Python `re.split(r'(P+)', s)` for a character class `P`: the list
alternates unmatched pieces with the captured separator runs, beginning and
ending with an (possibly empty) unmatched piece. -/
def reSplitCaptureGo (p : Char → Bool) : Nat → List Char → List (List Char)
  | 0, s => [s.takeWhile (fun c => !p c)]
  | fuel + 1, s =>
    match s.dropWhile (fun c => !p c) with
    | [] => [s.takeWhile (fun c => !p c)]
    | c :: tail =>
      s.takeWhile (fun c => !p c) :: (c :: tail.takeWhile p) ::
        reSplitCaptureGo p fuel (tail.dropWhile p)

/-- Wrapper running the capture-split scanner with its always-sufficient
fuel (each separator match consumes at least one character; a zero-fuel
string is empty and yields its single empty piece either way). -/
def reSplitCapture (p : Char → Bool) (s : List Char) : List (List Char) :=
  reSplitCaptureGo p s.length s

/-- Sentence-ending characters of the source (`[.!?]+`). -/
def isSentencePunct (c : Char) : Bool := c == '.' || c == '!' || c == '?'

/-- Clause-break characters of the source (`[,;:]+`). -/
def isClausePunct (c : Char) : Bool := c == ',' || c == ';' || c == ':'

/-- The pairing loop `for i in range(0, len(pieces), 2)` that reattaches each
captured punctuation run to the text piece before it. -/
def pairUp : List (List Char) → List (List Char)
  | [] => []
  | [t] => [t]
  | t :: punct :: rest => (t ++ punct) :: pairUp rest

/-- The comprehension `[chunk.strip() for chunk in chunks if chunk.strip()]`
that every chunking routine applies to its result. -/
def stripNonempty (chunks : List (List Char)) : List (List Char) :=
  (chunks.map pyStrip).filter (fun c => !c.isEmpty)

/-- The join `(current_chunk + " " + unit) if current_chunk else unit`. -/
def joinSp (current unit : List Char) : List Char :=
  if current.isEmpty then unit else current ++ ' ' :: unit

/-! ## Duration estimation (`_estimate_audio_duration`) -/

/-- Source constant `COMFORTABLE_DURATION = 25.0`. -/
def COMFORTABLE_DURATION : ℚ := 25

/-- Source constant `MAX_DURATION_HARD_LIMIT = 40.0`. -/
def MAX_DURATION_HARD_LIMIT : ℚ := 40

/-- Source constant `ESTIMATED_CHARS_PER_SECOND = 12`. -/
def ESTIMATED_CHARS_PER_SECOND : Nat := 12

/-- The whitespace-normalized text `re.sub(r'\s+', ' ', text.strip())`. -/
def clean_text (s : List Char) : List Char := collapseWs (pyStrip s)

/-- The `char_count` of `_estimate_audio_duration`. -/
def char_count (s : List Char) : Nat := (clean_text s).length

/-- `_estimate_audio_duration`: the whitespace-normalized character count
divided by `ESTIMATED_CHARS_PER_SECOND` (an exact rational, via `mkRat`). -/
def estimate_audio_duration (s : List Char) : ℚ :=
  mkRat (char_count s) ESTIMATED_CHARS_PER_SECOND

/-! ## The chunker -/

/-- The word-accumulation loop of `_split_on_words`: greedily append words
to the current chunk while the estimate stays within `maxD`. -/
def wordLoop (maxD : ℚ) : List (List Char) → List Char → List (List Char) → List (List Char)
  | [], current, chunks => if current.isEmpty then chunks else chunks ++ [current]
  | word :: rest, current, chunks =>
    let test := joinSp current word
    if estimate_audio_duration test ≤ maxD then wordLoop maxD rest test chunks
    else wordLoop maxD rest word (if current.isEmpty then chunks else chunks ++ [current])

/-- `_split_on_words`: split text on word boundaries as last resort. -/
def split_on_words (text : List Char) (maxD : ℚ) : List (List Char) :=
  stripNonempty (wordLoop maxD (pyWords text) [] [])

/-- The clause-accumulation loop of `_split_on_clauses`.  When a single
clause is itself over the limit it is split on words; the source then
extends the chunk list with `word_chunks[:-1]` and continues accumulating
from `word_chunks[-1]` (that list is non-empty on every reachable path;
the model uses `getLastD` with an empty-string default). -/
def clauseLoop (maxD : ℚ) : List (List Char) → List Char → List (List Char) → List (List Char)
  | [], current, chunks => if current.isEmpty then chunks else chunks ++ [current]
  | unit :: rest, current, chunks =>
    let clause := pyStrip unit
    if clause.isEmpty then clauseLoop maxD rest current chunks
    else
      let test := joinSp current clause
      if estimate_audio_duration test ≤ maxD then clauseLoop maxD rest test chunks
      else
        let chunks₁ := if current.isEmpty then chunks else chunks ++ [current]
        if estimate_audio_duration clause ≤ maxD then clauseLoop maxD rest clause chunks₁
        else
          let wordChunks := split_on_words clause maxD
          clauseLoop maxD rest (wordChunks.getLastD []) (chunks₁ ++ wordChunks.dropLast)

/-- `_split_on_clauses`: split text on clause boundaries (`, ; :`). -/
def split_on_clauses (text : List Char) (maxD : ℚ) : List (List Char) :=
  if estimate_audio_duration text ≤ maxD then [text]
  else stripNonempty (clauseLoop maxD (pairUp (reSplitCapture isClausePunct text)) [] [])

/-- The sentence-accumulation loop of `_split_long_text`; over-long
sentences descend to `_split_on_clauses` with the same `[:-1]` / `[-1]`
bookkeeping as `clauseLoop`. -/
def sentenceLoop (maxD : ℚ) : List (List Char) → List Char → List (List Char) → List (List Char)
  | [], current, chunks => if current.isEmpty then chunks else chunks ++ [current]
  | unit :: rest, current, chunks =>
    let sentence := pyStrip unit
    if sentence.isEmpty then sentenceLoop maxD rest current chunks
    else
      let test := joinSp current sentence
      if estimate_audio_duration test ≤ maxD then sentenceLoop maxD rest test chunks
      else
        let chunks₁ := if current.isEmpty then chunks else chunks ++ [current]
        if estimate_audio_duration sentence ≤ maxD then sentenceLoop maxD rest sentence chunks₁
        else
          let clauseChunks := split_on_clauses sentence maxD
          sentenceLoop maxD rest (clauseChunks.getLastD []) (chunks₁ ++ clauseChunks.dropLast)

/-- `_split_long_text`: split text that is too long on sentence and clause
boundaries. -/
def split_long_text (text : List Char) (maxD : ℚ) : List (List Char) :=
  if estimate_audio_duration text ≤ maxD then [text]
  else stripNonempty (sentenceLoop maxD (pairUp (reSplitCapture isSentencePunct text)) [] [])

/-- The paragraph loop of `_aggressive_chunking`.  The source's two
branches for a long paragraph (lines 431-438) issue the identical call
`_split_long_text(paragraph, target_duration)`, which the model keeps. -/
def aggressiveLoop (target : ℚ) : List (List Char) → List (List Char) → List (List Char)
  | [], chunks => chunks
  | p :: rest, chunks =>
    let para := pyStrip p
    if para.isEmpty then aggressiveLoop target rest chunks
    else if estimate_audio_duration para ≤ target then
      aggressiveLoop target rest (chunks ++ [para])
    else if estimate_audio_duration para ≤ MAX_DURATION_HARD_LIMIT then
      aggressiveLoop target rest (chunks ++ split_long_text para target)
    else
      aggressiveLoop target rest (chunks ++ split_long_text para target)

/-- `_aggressive_chunking`: chunk text that is over the hard limit. -/
def aggressive_chunking (text : List Char) (target_duration : ℚ) : List (List Char) :=
  stripNonempty (aggressiveLoop target_duration (splitParas text) [])

/-- The paragraph-accumulation loop of `_try_gentle_chunking`: candidates
are compared against `MAX_DURATION_HARD_LIMIT`, and paragraphs are joined
with a double line break. -/
def gentleParaLoop : List (List Char) → List Char → List (List Char) → List (List Char)
  | [], current, chunks => if current.isEmpty then chunks else chunks ++ [current]
  | p :: rest, current, chunks =>
    let para := pyStrip p
    if para.isEmpty then gentleParaLoop rest current chunks
    else
      let test := if current.isEmpty then para else current ++ '\n' :: '\n' :: para
      if estimate_audio_duration test ≤ MAX_DURATION_HARD_LIMIT then
        gentleParaLoop rest test chunks
      else
        gentleParaLoop rest para (if current.isEmpty then chunks else chunks ++ [current])

/-- The sentence-accumulation loop of `_try_gentle_chunking`: the chunk is
closed before a sentence only when the chunk is non-empty and the candidate
would exceed `MAX_DURATION_HARD_LIMIT`. -/
def gentleSentLoop : List (List Char) → List Char → List (List Char) → List (List Char)
  | [], current, chunks => if current.isEmpty then chunks else chunks ++ [current]
  | unit :: rest, current, chunks =>
    let sentence := pyStrip unit
    if sentence.isEmpty then gentleSentLoop rest current chunks
    else
      let test := joinSp current sentence
      if !current.isEmpty ∧ MAX_DURATION_HARD_LIMIT < estimate_audio_duration test then
        gentleSentLoop rest sentence (chunks ++ [current])
      else gentleSentLoop rest test chunks

/-- `_try_gentle_chunking`: look for natural paragraph or sentence break
points without forcing chunking.  The `target_duration` argument is unused
by the source as well. -/
def try_gentle_chunking (text : List Char) (target_duration : ℚ) : List (List Char) :=
  let paragraphs := splitParas text
  if 1 < paragraphs.length then stripNonempty (gentleParaLoop paragraphs [] [])
  else
    let sentences := reSplitCapture isSentencePunct text
    if 2 < sentences.length then
      let chunks := gentleSentLoop (pairUp sentences) [] []
      if 1 < chunks.length then stripNonempty chunks else []
    else []

/-- `_chunk_text_smartly`: the three-tier chunking policy. -/
def chunk_text_smartly (text : List Char) (comfortable_duration : ℚ) : List (List Char) :=
  let estimated_duration := estimate_audio_duration text
  if estimated_duration ≤ comfortable_duration then [pyStrip text]
  else if estimated_duration ≤ MAX_DURATION_HARD_LIMIT then
    let gentle := try_gentle_chunking text comfortable_duration
    if 1 < gentle.length then gentle else [pyStrip text]
  else aggressive_chunking text comfortable_duration

/-! ## Synthesis call plan of `_generate_audio` -/

/-- One synthesizer invocation: the text passed to `model.generate` and
whether the call carries the reference-audio prompt (`audio_prompt_path`). -/
structure SynthCall where
  text : List Char
  withPrompt : Bool
deriving DecidableEq, Repr

/-- The `for i, chunk in enumerate(chunks)` loop of `_generate_audio`:
the prompt is attached only when one is present and `i == 0`. -/
def chunkCallPlan (hasPrompt : Bool) : Nat → List (List Char) → List SynthCall
  | _, [] => []
  | i, c :: rest => ⟨c, hasPrompt && decide (i = 0)⟩ :: chunkCallPlan hasPrompt (i + 1) rest

/-- The sequence of synthesizer calls `_generate_audio` issues for a text:
a single direct call when the estimate is within the hard limit, otherwise
one call per chunk of `_chunk_text_smartly(text, COMFORTABLE_DURATION)`.
The waveform post-processing is external and not part of the plan. -/
def generate_audio_calls (text : List Char) (hasPrompt : Bool) : List SynthCall :=
  if estimate_audio_duration text ≤ MAX_DURATION_HARD_LIMIT then [⟨text, hasPrompt⟩]
  else chunkCallPlan hasPrompt 0 (chunk_text_smartly text COMFORTABLE_DURATION)

/-! ## Audio concatenation (`_concatenate_audio_files`) -/

/-- A decoded audio file: samples plus sample rate. -/
structure Waveform where
  samples : List Int
  sample_rate : Nat
deriving DecidableEq, Repr

/-- `_concatenate_audio_files`.  An empty list raises
`ValueError("No audio files to concatenate")`; a single file is copied
unchanged; two or more files are handed to the external `ffmpeg` concat
demuxer, which the model renders as successful sample concatenation — the
source never inspects the files' sample rates (its `sample_rate` parameter
is unused). -/
def concatenate_audio_files : List Waveform → Except String Waveform
  | [] => .error "No audio files to concatenate"
  | [f] => .ok f
  | f :: g :: rest => .ok ⟨((f :: g :: rest).map Waveform.samples).flatten, f.sample_rate⟩

/-! ## Single-consumer queue (`queue_consumer`) -/

/-- The observable effect of consuming one job, as recorded by the worker
state: the job's future is resolved with the processing outcome, and
`total_jobs_processed` is incremented inside the `try` block, i.e. only
after a successful `process_job`. -/
structure WorkerState (α : Type) where
  resolved : List (Except String α)
  total_jobs_processed : Nat
deriving Repr

/-- One iteration of the `while True` loop of `queue_consumer` on a job
whose processing yields `outcome`: success resolves the future with the
result and increments the counter; failure resolves the future with the
exception and leaves the counter unchanged.  Either way the loop
continues. -/
def consumeJob {α : Type} (st : WorkerState α) (outcome : Except String α) : WorkerState α :=
  match outcome with
  | .ok r => ⟨st.resolved ++ [.ok r], st.total_jobs_processed + 1⟩
  | .error e => ⟨st.resolved ++ [.error e], st.total_jobs_processed⟩

/-- The worker loop of `queue_consumer` run over a finite prefix of the
job stream, each job described by its processing outcome. -/
def queue_consumer_run {α : Type} (st : WorkerState α) (jobs : List (Except String α)) :
    WorkerState α :=
  jobs.foldl consumeJob st

/-! ## Batch processing (`_process_batch_job`) -/

/-- One slot of a batch response (the fields of `TTSResponse` that
`_process_batch_job` fills in). -/
structure TTSResultSlot where
  success : Bool
  audio_base64 : Option String
  message : Option String
  sample_rate : Nat
  duration_seconds : ℚ
deriving DecidableEq, Repr

/-- The batch-level result of `_process_batch_job`. -/
structure BatchJobResult where
  success : Bool
  results : List TTSResultSlot
  total_duration : ℚ
deriving DecidableEq, Repr

/-- The slot recorded for one text, given the outcome of its
`_generate_audio` call (base64 audio and duration on success, the caught
exception message on failure). -/
def batchSlot (sr : Nat) : Except String (String × ℚ) → TTSResultSlot
  | .ok (b64, d) => ⟨true, some b64, none, sr, d⟩
  | .error e => ⟨false, none, some e, 22050, 0⟩

/-- The `for i, text in enumerate(texts)` loop of `_process_batch_job`:
each text's outcome is appended in order, and `total_duration` accumulates
only the successful durations. -/
def batchLoop (sr : Nat) : List (Except String (String × ℚ)) → List TTSResultSlot → ℚ →
    List TTSResultSlot × ℚ
  | [], results, total => (results, total)
  | .ok (b64, d) :: rest, results, total =>
    batchLoop sr rest (results ++ [⟨true, some b64, none, sr, d⟩]) (total + d)
  | .error e :: rest, results, total =>
    batchLoop sr rest (results ++ [⟨false, none, some e, 22050, 0⟩]) total

/-- `_process_batch_job`, abstracted over the per-text synthesis outcomes:
runs the loop and always reports batch-level `success=True`. -/
def process_batch_job (sr : Nat) (outcomes : List (Except String (String × ℚ))) :
    BatchJobResult :=
  let (results, total) := batchLoop sr outcomes [] 0
  ⟨true, results, total⟩

/-! ## Derived notions used by the specification statements -/

/-- Words joined by single spaces: the normal form of a whitespace-collapsed
stripped string. -/
def spaceJoin : List (List Char) → List Char
  | [] => []
  | [w] => w
  | w :: rest => w ++ ' ' :: spaceJoin rest

/-- Total character count of a list of words. -/
def sumLen (ws : List (List Char)) : Nat := (ws.map List.length).sum

/-- Whether a job outcome is a success (used to count the jobs for which
`total_jobs_processed` is incremented). -/
def exceptOk {α : Type} : Except String α → Bool
  | .ok _ => true
  | .error _ => false

/-- The duration contributed by one per-text outcome to `total_duration`:
the synthesized duration on success, nothing on failure. -/
def okDuration : Except String (String × ℚ) → ℚ
  | .ok (_, d) => d
  | .error _ => 0

/-! ## Concrete inputs used by witnesses and counterexamples -/

/-- The spec's concrete input `"Hi there."`. -/
def exHiThere : List Char := "Hi there.".data

/-- A short text with surrounding whitespace, comfortably under 25s. -/
def exShort : List Char := " Hi there. ".data

/-- A 481-character text whose only break point is a sentence boundary in
the middle of an unbroken token: 240 x's, a period, then 241 y's. -/
def exDotToken : List Char :=
  List.replicate 240 'x' ++ '.' :: List.replicate 241 'y'

/-- A two-word paragraph of 360 normalized characters (estimate 30s). -/
def exParaAB : List Char := List.replicate 180 'a' ++ ' ' :: List.replicate 179 'b'

/-- A second two-word paragraph of 360 normalized characters. -/
def exParaCD : List Char := List.replicate 180 'c' ++ ' ' :: List.replicate 179 'd'

/-- Two two-word paragraphs of 30s each, separated by a blank line. -/
def exTwoPara : List Char := exParaAB ++ '\n' :: '\n' :: exParaCD

/-- Two single-token paragraphs of 360 characters each (30s each). -/
def exTwoTokenPara : List Char :=
  List.replicate 360 'a' ++ '\n' :: '\n' :: List.replicate 360 'b'

/-- Two 200-character paragraphs: 401 normalized characters in total, in the
gentle tier (between 25s and 40s). -/
def exGentlePara : List Char :=
  List.replicate 200 'a' ++ '\n' :: '\n' :: List.replicate 200 'b'

/-- A single 500-character token, over the 40s hard limit. -/
def exLongToken : List Char := List.replicate 500 'a'

/-! # Lemmas

## Whitespace, `dropWhile` and `pyStrip` basics -/

theorem dropWhile_head_false {α : Type} {p : α → Bool} :
    ∀ {l : List α} {c : α} {rest : List α}, l.dropWhile p = c :: rest → p c = false := by
  intro l
  induction l with
  | nil => intro c rest h; simp at h
  | cons a l ih =>
    intro c rest h
    rw [List.dropWhile_cons] at h
    by_cases ha : p a
    · exact ih (by simpa [ha] using h)
    · rw [if_neg ha] at h
      cases h
      simpa using ha

theorem dropWhile_cons_false {α : Type} {p : α → Bool} {c : α} (l : List α) (h : p c = false) :
    (c :: l).dropWhile p = c :: l := by
  simp [List.dropWhile_cons, h]

theorem dropWhile_idem {α : Type} (p : α → Bool) (l : List α) :
    (l.dropWhile p).dropWhile p = l.dropWhile p := by
  cases h : l.dropWhile p with
  | nil => simp
  | cons c rest => exact dropWhile_cons_false rest (dropWhile_head_false h)

theorem takeWhile_all {α : Type} (p : α → Bool) (l : List α) : (l.takeWhile p).all p = true := by
  induction l with
  | nil => simp
  | cons c rest ih =>
    by_cases h : p c
    · simp [List.takeWhile_cons, h, ih]
    · simp [List.takeWhile_cons, h]

theorem take_drop_length {α : Type} (p : α → Bool) (l : List α) :
    (l.takeWhile p).length + (l.dropWhile p).length = l.length := by
  rw [← List.length_append, List.takeWhile_append_dropWhile]

theorem dropWhile_length_le {α : Type} (p : α → Bool) (l : List α) :
    (l.dropWhile p).length ≤ l.length := by
  have := take_drop_length p l
  omega

/-! ## Fuel sufficiency for the scanning primitives -/

theorem collapseWsGo_congr : ∀ (n : Nat) (s : List Char), s.length ≤ n →
    collapseWsGo n s = collapseWs s := by
  intro n
  induction n using Nat.strong_induction_on with
  | _ n ih =>
    intro s hs
    match n, s with
    | n, [] =>
      cases n <;> rfl
    | n + 1, c :: rest =>
      show collapseWsGo (n + 1) (c :: rest) = collapseWsGo (rest.length + 1) (c :: rest)
      simp only [collapseWsGo]
      have hr : rest.length ≤ n := by
        simp only [List.length_cons] at hs
        omega
      by_cases hc : isPySpace c
      · rw [if_pos hc, if_pos hc,
          ih n (by omega) _ ((dropWhile_length_le ..).trans hr),
          ih rest.length (by omega) _ (dropWhile_length_le ..)]
      · rw [if_neg hc, if_neg hc, ih n (by omega) rest hr, ih rest.length (by omega) rest le_rfl]

theorem collapseWs_nil : collapseWs [] = [] := rfl

theorem collapseWs_cons (c : Char) (rest : List Char) :
    collapseWs (c :: rest) =
      if isPySpace c then ' ' :: collapseWs (rest.dropWhile isPySpace)
      else c :: collapseWs rest := by
  show collapseWsGo (rest.length + 1) (c :: rest) = _
  simp only [collapseWsGo]
  by_cases hc : isPySpace c
  · rw [if_pos hc, if_pos hc, collapseWsGo_congr rest.length _ (dropWhile_length_le ..)]
  · rw [if_neg hc, if_neg hc]
    rfl

theorem pyWordsGo_congr : ∀ (n : Nat) (s : List Char), s.length ≤ n →
    pyWordsGo n s = pyWords s := by
  intro n
  induction n using Nat.strong_induction_on with
  | _ n ih =>
    intro s hs
    match n, s with
    | n, [] =>
      cases n <;> rfl
    | n + 1, c :: rest =>
      show pyWordsGo (n + 1) (c :: rest) = pyWordsGo (rest.length + 1) (c :: rest)
      simp only [pyWordsGo]
      have hr : rest.length ≤ n := by
        simp only [List.length_cons] at hs
        omega
      by_cases hc : isPySpace c
      · rw [if_pos hc, if_pos hc, ih n (by omega) rest hr, ih rest.length (by omega) rest le_rfl]
      · rw [if_neg hc, if_neg hc,
          ih n (by omega) _ ((dropWhile_length_le ..).trans hr),
          ih rest.length (by omega) _ (dropWhile_length_le ..)]

theorem splitParasAuxGo_congr : ∀ (n : Nat) (s acc : List Char), s.length ≤ n →
    splitParasAuxGo n s acc = splitParasAux s acc := by
  intro n
  induction n using Nat.strong_induction_on with
  | _ n ih =>
    intro s acc hs
    match n, s with
    | n, [] =>
      cases n <;> rfl
    | n + 1, c :: rest =>
      show splitParasAuxGo (n + 1) (c :: rest) acc =
        splitParasAuxGo (rest.length + 1) (c :: rest) acc
      simp only [splitParasAuxGo]
      have hr : rest.length ≤ n := by
        simp only [List.length_cons] at hs
        omega
      have hrem : ((rest.takeWhile isPySpace).drop
          ((rest.takeWhile isPySpace).reverse.dropWhile
            (fun x => x != '\n')).reverse.length ++
          rest.dropWhile isPySpace).length ≤ rest.length := by
        have h1 := take_drop_length isPySpace rest
        simp only [List.length_append, List.length_drop]
        omega
      by_cases hc : c = '\n' ∧ '\n' ∈ rest.takeWhile isPySpace
      · rw [if_pos hc, if_pos hc, ih n (by omega) _ [] (hrem.trans hr),
          ih rest.length (by omega) _ [] hrem]
      · rw [if_neg hc, if_neg hc, ih n (by omega) rest (c :: acc) hr,
          ih rest.length (by omega) rest (c :: acc) le_rfl]

theorem reSplitCaptureGo_congr (p : Char → Bool) : ∀ (n : Nat) (s : List Char),
    s.length ≤ n → reSplitCaptureGo p n s = reSplitCapture p s := by
  intro n
  induction n using Nat.strong_induction_on with
  | _ n ih =>
    intro s hs
    match n with
    | 0 =>
      have hnil : s = [] := List.length_eq_zero.mp (by omega)
      subst hnil
      rfl
    | n + 1 =>
      match hsn : s with
      | [] => rfl
      | a :: s₂ =>
        show reSplitCaptureGo p (n + 1) (a :: s₂) =
          reSplitCaptureGo p (s₂.length + 1) (a :: s₂)
        simp only [reSplitCaptureGo]
        cases hd : (a :: s₂).dropWhile (fun c => !p c) with
        | nil => rfl
        | cons c tail =>
          have hlen : tail.length ≤ s₂.length := by
            have h1 := congrArg List.length hd
            have h2 := dropWhile_length_le (fun c => !p c) (a :: s₂)
            simp only [List.length_cons] at h1 h2 ⊢
            omega
          have htd : (tail.dropWhile p).length ≤ s₂.length :=
            (dropWhile_length_le ..).trans hlen
          have hr : s₂.length ≤ n := by
            simp only [List.length_cons] at hs
            omega
          show (a :: s₂).takeWhile (fun c => !p c) :: (c :: tail.takeWhile p) ::
              reSplitCaptureGo p n (tail.dropWhile p) =
            (a :: s₂).takeWhile (fun c => !p c) :: (c :: tail.takeWhile p) ::
              reSplitCaptureGo p s₂.length (tail.dropWhile p)
          rw [ih n (by omega) _ (htd.trans hr), ih s₂.length (by omega) _ htd]

theorem reSplitCapture_eq_nil {p : Char → Bool} {s : List Char}
    (h : s.dropWhile (fun c => !p c) = []) :
    reSplitCapture p s = [s.takeWhile (fun c => !p c)] := by
  cases s with
  | nil => rfl
  | cons a s₂ =>
    show reSplitCaptureGo p (s₂.length + 1) (a :: s₂) = _
    simp only [reSplitCaptureGo]
    rw [h]

theorem reSplitCapture_eq_cons {p : Char → Bool} {s : List Char} {c : Char}
    {tail : List Char} (h : s.dropWhile (fun c => !p c) = c :: tail) :
    reSplitCapture p s = s.takeWhile (fun c => !p c) :: (c :: tail.takeWhile p) ::
      reSplitCapture p (tail.dropWhile p) := by
  cases s with
  | nil => simp at h
  | cons a s₂ =>
    show reSplitCaptureGo p (s₂.length + 1) (a :: s₂) = _
    simp only [reSplitCaptureGo]
    rw [h]
    have hlen : tail.length ≤ s₂.length := by
      have h1 := congrArg List.length h
      have h2 := dropWhile_length_le (fun c => !p c) (a :: s₂)
      simp only [List.length_cons] at h1 h2 ⊢
      omega
    show (a :: s₂).takeWhile (fun c => !p c) :: (c :: tail.takeWhile p) ::
        reSplitCaptureGo p s₂.length (tail.dropWhile p) = _
    rw [reSplitCaptureGo_congr p s₂.length _ ((dropWhile_length_le ..).trans hlen)]

/-! ## Induction principles for the scanning primitives -/

theorem pyWords_induction (motive : List Char → Prop) (base : motive [])
    (ws_case : ∀ c rest, isPySpace c = true → motive rest → motive (c :: rest))
    (word_case : ∀ c rest, isPySpace c = false →
      motive (rest.dropWhile (fun x => !isPySpace x)) → motive (c :: rest)) :
    ∀ s, motive s := by
  have H : ∀ (n : Nat) (s : List Char), s.length ≤ n → motive s := by
    intro n
    induction n with
    | zero =>
      intro s hs
      have hnil : s = [] := List.length_eq_zero.mp (by omega)
      exact hnil ▸ base
    | succ n ih =>
      intro s hs
      match s with
      | [] => exact base
      | c :: rest =>
        simp only [List.length_cons] at hs
        by_cases h : isPySpace c
        · exact ws_case c rest h (ih rest (by omega))
        · exact word_case c rest (by simpa using h)
            (ih _ (le_trans (dropWhile_length_le ..) (by omega)))
  exact fun s => H s.length s le_rfl

theorem splitParasAux_induction (motive : List Char → List Char → Prop)
    (base : ∀ acc, motive [] acc)
    (pos : ∀ acc c rest, c = '\n' ∧ '\n' ∈ rest.takeWhile isPySpace →
      motive ((rest.takeWhile isPySpace).drop
        ((rest.takeWhile isPySpace).reverse.dropWhile
          (fun x => x != '\n')).reverse.length ++ rest.dropWhile isPySpace) [] →
      motive (c :: rest) acc)
    (neg : ∀ acc c rest, ¬(c = '\n' ∧ '\n' ∈ rest.takeWhile isPySpace) →
      motive rest (c :: acc) → motive (c :: rest) acc) :
    ∀ s acc, motive s acc := by
  have H : ∀ (n : Nat) (s acc : List Char), s.length ≤ n → motive s acc := by
    intro n
    induction n with
    | zero =>
      intro s acc hs
      have hnil : s = [] := List.length_eq_zero.mp (by omega)
      exact hnil ▸ base acc
    | succ n ih =>
      intro s acc hs
      match s with
      | [] => exact base acc
      | c :: rest =>
        simp only [List.length_cons] at hs
        by_cases h : c = '\n' ∧ '\n' ∈ rest.takeWhile isPySpace
        · refine pos acc c rest h (ih _ [] ?_)
          have h1 := take_drop_length isPySpace rest
          simp only [List.length_append, List.length_drop]
          omega
        · exact neg acc c rest h (ih rest (c :: acc) (by omega))
  exact fun s acc => H s.length s acc le_rfl

theorem reSplitCapture_induction (p : Char → Bool) (motive : List Char → Prop)
    (base : ∀ x, x.dropWhile (fun c => !p c) = [] → motive x)
    (step : ∀ x c tail, x.dropWhile (fun c => !p c) = c :: tail →
      motive (tail.dropWhile p) → motive x) :
    ∀ s, motive s := by
  have H : ∀ (n : Nat) (s : List Char), s.length ≤ n → motive s := by
    intro n
    induction n with
    | zero =>
      intro s hs
      have hnil : s = [] := List.length_eq_zero.mp (by omega)
      subst hnil
      exact base [] rfl
    | succ n ih =>
      intro s hs
      cases hd : s.dropWhile (fun c => !p c) with
      | nil => exact base s hd
      | cons c tail =>
        refine step s c tail hd (ih _ ?_)
        have h1 := congrArg List.length hd
        have h2 := dropWhile_length_le (fun c => !p c) s
        have h3 := dropWhile_length_le p tail
        simp only [List.length_cons] at h1
        omega
  exact fun s => H s.length s le_rfl

theorem pyStrip_reverse_eq (s : List Char) :
    (pyStrip s).reverse = (s.dropWhile isPySpace).reverse.dropWhile isPySpace := by
  unfold pyStrip
  rw [List.reverse_reverse]

theorem pyStrip_decomp_right (s : List Char) :
    s.dropWhile isPySpace =
      pyStrip s ++ ((s.dropWhile isPySpace).reverse.takeWhile isPySpace).reverse := by
  conv_lhs => rw [← List.reverse_reverse (s.dropWhile isPySpace)]
  conv_lhs =>
    rw [← List.takeWhile_append_dropWhile (p := isPySpace)
      (l := (s.dropWhile isPySpace).reverse)]
  rw [List.reverse_append, ← pyStrip_reverse_eq, List.reverse_reverse]

theorem pyStrip_decomp (s : List Char) :
    ∃ u v, u.all isPySpace = true ∧ v.all isPySpace = true ∧ s = u ++ pyStrip s ++ v := by
  refine ⟨s.takeWhile isPySpace,
    ((s.dropWhile isPySpace).reverse.takeWhile isPySpace).reverse, takeWhile_all .., ?_, ?_⟩
  · rw [List.all_eq_true]
    intro x hx
    rw [List.mem_reverse] at hx
    exact List.all_eq_true.mp (takeWhile_all isPySpace (s.dropWhile isPySpace).reverse) x hx
  · conv_lhs => rw [← List.takeWhile_append_dropWhile (p := isPySpace) (l := s)]
    rw [List.append_assoc]
    congr 1
    exact pyStrip_decomp_right s

theorem pyStrip_reverse_dropWhile (s : List Char) :
    (pyStrip s).reverse.dropWhile isPySpace = (pyStrip s).reverse := by
  rw [pyStrip_reverse_eq]
  exact dropWhile_idem ..

theorem pyStrip_dropWhile (s : List Char) :
    (pyStrip s).dropWhile isPySpace = pyStrip s := by
  have hidem : (pyStrip s ++ ((s.dropWhile isPySpace).reverse.takeWhile
      isPySpace).reverse).dropWhile isPySpace =
      pyStrip s ++ ((s.dropWhile isPySpace).reverse.takeWhile isPySpace).reverse := by
    rw [← pyStrip_decomp_right s]
    exact dropWhile_idem ..
  rw [List.dropWhile_append] at hidem
  by_cases hc : ((pyStrip s).dropWhile isPySpace).isEmpty
  · rw [if_pos hc] at hidem
    rw [List.isEmpty_iff] at hc
    have hlen := congrArg List.length hidem
    rw [List.length_append] at hlen
    have hle := take_drop_length isPySpace
      ((s.dropWhile isPySpace).reverse.takeWhile isPySpace).reverse
    have hz : (pyStrip s).length = 0 := by omega
    rw [List.length_eq_zero] at hz
    rw [hz]
    simp
  · rw [if_neg hc] at hidem
    exact List.append_cancel_right hidem

theorem pyStrip_idem (s : List Char) : pyStrip (pyStrip s) = pyStrip s := by
  conv_lhs => rw [pyStrip, pyStrip_dropWhile, pyStrip_reverse_dropWhile, List.reverse_reverse]

/-! ## `letters` lemmas -/

theorem letters_nil : letters [] = [] := rfl

theorem letters_append (a b : List Char) : letters (a ++ b) = letters a ++ letters b :=
  List.filter_append a b

theorem letters_cons_ws {c : Char} (h : isPySpace c = true) (s : List Char) :
    letters (c :: s) = letters s := by
  simp [letters, List.filter_cons, h]

theorem letters_cons_not {c : Char} (h : isPySpace c = false) (s : List Char) :
    letters (c :: s) = c :: letters s := by
  simp [letters, List.filter_cons, h]

theorem letters_all_ws {s : List Char} (h : s.all isPySpace = true) : letters s = [] := by
  induction s with
  | nil => rfl
  | cons c rest ih =>
    rw [List.all_cons, Bool.and_eq_true] at h
    rw [letters_cons_ws h.1]
    exact ih h.2

theorem letters_reverse (s : List Char) : letters s.reverse = (letters s).reverse :=
  List.filter_reverse ..

theorem letters_dropWhile_ws (s : List Char) :
    letters (s.dropWhile isPySpace) = letters s := by
  induction s with
  | nil => rfl
  | cons c rest ih =>
    rw [List.dropWhile_cons]
    by_cases h : isPySpace c
    · rw [if_pos h, ih, letters_cons_ws h]
    · rw [if_neg h]

theorem letters_pyStrip (s : List Char) : letters (pyStrip s) = letters s := by
  obtain ⟨u, v, hu, hv, hs⟩ := pyStrip_decomp s
  conv_rhs => rw [hs]
  rw [letters_append, letters_append, letters_all_ws hu, letters_all_ws hv]
  simp

theorem letters_all_not_ws {s : List Char} (h : s.all (fun c => !isPySpace c) = true) :
    letters s = s := by
  induction s with
  | nil => rfl
  | cons c rest ih =>
    rw [List.all_cons, Bool.and_eq_true] at h
    have hc : isPySpace c = false := by simpa using h.1
    rw [letters_cons_not hc, ih h.2]

/-! ## `pyWords` lemmas -/

theorem pyWords_nil : pyWords [] = [] := rfl

theorem pyWords_cons_ws {c : Char} (h : isPySpace c = true) (s : List Char) :
    pyWords (c :: s) = pyWords s := by
  show pyWordsGo (s.length + 1) (c :: s) = pyWordsGo s.length s
  simp only [pyWordsGo]
  rw [if_pos h]

theorem pyWords_cons_not {c : Char} (h : isPySpace c = false) (s : List Char) :
    pyWords (c :: s) = (c :: s.takeWhile (fun x => !isPySpace x)) ::
      pyWords (s.dropWhile (fun x => !isPySpace x)) := by
  show pyWordsGo (s.length + 1) (c :: s) = _
  simp only [pyWordsGo]
  rw [if_neg (by simp [h]), pyWordsGo_congr s.length _ (dropWhile_length_le ..)]

theorem pyWords_dropWhile_ws (s : List Char) :
    pyWords (s.dropWhile isPySpace) = pyWords s := by
  induction s with
  | nil => rfl
  | cons c rest ih =>
    by_cases h : isPySpace c
    · rw [List.dropWhile_cons, if_pos h, ih, pyWords_cons_ws h]
    · rw [List.dropWhile_cons, if_neg h]

theorem pyWords_mem {s : List Char} :
    ∀ w ∈ pyWords s, w ≠ [] ∧ w.all (fun c => !isPySpace c) = true := by
  induction s using pyWords_induction with
  | base =>
    intro w hw
    rw [pyWords_nil] at hw
    simp at hw
  | ws_case c rest h ih =>
    intro w hw
    rw [pyWords_cons_ws h] at hw
    exact ih w hw
  | word_case c rest h ih =>
    intro w hw
    have hc : isPySpace c = false := h
    rw [pyWords_cons_not hc] at hw
    rcases List.mem_cons.mp hw with hw | hw
    · subst hw
      refine ⟨by simp, ?_⟩
      rw [List.all_cons, Bool.and_eq_true]
      exact ⟨by simp [hc], takeWhile_all ..⟩
    · exact ih w hw

theorem pyWords_ws_append {sep : List Char} (h : sep.all isPySpace = true) (y : List Char) :
    pyWords (sep ++ y) = pyWords y := by
  induction sep with
  | nil => rfl
  | cons c rest ih =>
    rw [List.all_cons, Bool.and_eq_true] at h
    rw [List.cons_append, pyWords_cons_ws h.1, ih h.2]

theorem takeWhile_append_headF {α : Type} {p : α → Bool} (x : List α) {c : α} (z : List α)
    (hc : p c = false) : (x ++ c :: z).takeWhile p = x.takeWhile p := by
  induction x with
  | nil => simp [List.takeWhile_cons, hc]
  | cons a rest ih =>
    by_cases ha : p a
    · simp [List.takeWhile_cons, ha, ih]
    · simp [List.takeWhile_cons, ha]

theorem dropWhile_append_headF {α : Type} {p : α → Bool} (x : List α) {c : α} (z : List α)
    (hc : p c = false) : (x ++ c :: z).dropWhile p = x.dropWhile p ++ c :: z := by
  induction x with
  | nil => simp [List.dropWhile_cons, hc]
  | cons a rest ih =>
    by_cases ha : p a
    · simp [List.dropWhile_cons, ha, ih]
    · simp [List.dropWhile_cons, ha]

theorem pyWords_append_sep (x : List Char) {sep : List Char} (hsep : sep.all isPySpace = true)
    (hne : sep ≠ []) (y : List Char) :
    pyWords (x ++ sep ++ y) = pyWords x ++ pyWords y := by
  obtain ⟨s₀, sep', rfl⟩ := List.exists_cons_of_ne_nil hne
  rw [List.all_cons, Bool.and_eq_true] at hsep
  have hc : (fun x => !isPySpace x) s₀ = false := by simp [hsep.1]
  induction x using pyWords_induction generalizing y with
  | base =>
    rw [List.nil_append, pyWords_nil, List.nil_append]
    exact pyWords_ws_append (by rw [List.all_cons, Bool.and_eq_true]; exact hsep) y
  | ws_case c rest h ih =>
    rw [pyWords_cons_ws h, List.cons_append, List.cons_append, pyWords_cons_ws h]
    exact ih y
  | word_case c rest h ih =>
    have hcc : isPySpace c = false := h
    have hsplit : (c :: rest) ++ s₀ :: sep' ++ y = c :: (rest ++ s₀ :: (sep' ++ y)) := by
      simp
    rw [hsplit, pyWords_cons_not hcc, pyWords_cons_not hcc,
      takeWhile_append_headF rest (sep' ++ y) hc,
      dropWhile_append_headF rest (sep' ++ y) hc]
    have hD : rest.dropWhile (fun x => !isPySpace x) ++ s₀ :: (sep' ++ y) =
        rest.dropWhile (fun x => !isPySpace x) ++ s₀ :: sep' ++ y := by simp
    rw [hD, ih y, List.cons_append]

theorem pyWords_append_ws_right {x sep : List Char} (hsep : sep.all isPySpace = true) :
    pyWords (x ++ sep) = pyWords x := by
  cases sep with
  | nil => simp
  | cons s₀ sep' =>
    have h := pyWords_append_sep x hsep (by simp) []
    rw [List.append_nil, pyWords_nil, List.append_nil] at h
    exact h

theorem pyWords_pyStrip (s : List Char) : pyWords (pyStrip s) = pyWords s := by
  obtain ⟨u, v, hu, hv, hs⟩ := pyStrip_decomp s
  conv_rhs => rw [hs]
  rw [pyWords_append_ws_right hv, pyWords_ws_append hu]

theorem letters_eq_flatten (s : List Char) : letters s = (pyWords s).flatten := by
  induction s using pyWords_induction with
  | base => simp [pyWords_nil, letters_nil]
  | ws_case c rest h ih => rw [letters_cons_ws h, pyWords_cons_ws h, ih]
  | word_case c rest h ih =>
    have hc : isPySpace c = false := h
    rw [letters_cons_not hc, pyWords_cons_not hc, List.flatten_cons, ← ih]
    have h2 : letters rest = rest.takeWhile (fun x => !isPySpace x) ++
        letters (rest.dropWhile (fun x => !isPySpace x)) := by
      conv_lhs => rw [← List.takeWhile_append_dropWhile (p := fun x => !isPySpace x) (l := rest)]
      rw [letters_append, letters_all_not_ws (takeWhile_all ..)]
    rw [h2]
    simp

/-! ## `collapseWs` and the `spaceJoin` normal form -/

theorem collapseWs_nonws_append {x : List Char} (h : x.all (fun c => !isPySpace c) = true)
    (y : List Char) : collapseWs (x ++ y) = x ++ collapseWs y := by
  induction x with
  | nil => rfl
  | cons c rest ih =>
    rw [List.all_cons, Bool.and_eq_true] at h
    have hc : isPySpace c = false := by simpa using h.1
    rw [List.cons_append, collapseWs_cons, if_neg (by simp [hc]), ih h.2]
    simp

theorem spaceJoin_cons {w : List Char} {l : List (List Char)} (h : l ≠ []) :
    spaceJoin (w :: l) = w ++ ' ' :: spaceJoin l := by
  cases l with
  | nil => exact absurd rfl h
  | cons a l₂ => rfl

theorem head_not_of_dropWhile_self {α : Type} {p : α → Bool} {c : α} {l : List α}
    (h : (c :: l).dropWhile p = c :: l) : p c = false := by
  by_cases hc : p c
  · rw [List.dropWhile_cons, if_pos hc] at h
    have hlen := congrArg List.length h
    have hle := dropWhile_length_le p l
    simp only [List.length_cons] at hlen
    omega
  · simpa using hc

theorem dropWhile_eq_nil_all {α : Type} {p : α → Bool} {l : List α}
    (h : l.dropWhile p = []) : l.all p = true := by
  induction l with
  | nil => rfl
  | cons c rest ih =>
    rw [List.dropWhile_cons] at h
    by_cases hc : p c
    · rw [List.all_cons, Bool.and_eq_true]
      exact ⟨hc, ih (by simpa [hc] using h)⟩
    · rw [if_neg hc] at h
      simp at h

theorem collapseWs_stripped : ∀ (n : Nat) (s : List Char), s.length ≤ n →
    s.dropWhile isPySpace = s → s.reverse.dropWhile isPySpace = s.reverse →
    collapseWs s = spaceJoin (pyWords s) := by
  intro n
  induction n with
  | zero =>
    intro s hs h1 h2
    have hnil : s = [] := List.length_eq_zero.mp (by omega)
    subst hnil
    simp [collapseWs_nil, pyWords_nil, spaceJoin]
  | succ n ih =>
    intro s hs h1 h2
    match s with
    | [] => simp [collapseWs_nil, pyWords_nil, spaceJoin]
    | c :: rest =>
      have hc : isPySpace c = false := head_not_of_dropWhile_self h1
      have hrest : rest = rest.takeWhile (fun x => !isPySpace x) ++
          rest.dropWhile (fun x => !isPySpace x) :=
        (List.takeWhile_append_dropWhile ..).symm
      have hall : (c :: rest.takeWhile (fun x => !isPySpace x)).all
          (fun x => !isPySpace x) = true := by
        rw [List.all_cons, Bool.and_eq_true]
        exact ⟨by simp [hc], takeWhile_all ..⟩
      have hsplit : c :: rest =
          (c :: rest.takeWhile (fun x => !isPySpace x)) ++
            rest.dropWhile (fun x => !isPySpace x) := by
        rw [List.cons_append]
        exact congrArg (c :: ·) hrest
      rw [pyWords_cons_not hc]
      cases hd : rest.dropWhile (fun x => !isPySpace x) with
      | nil =>
        rw [hd] at hsplit
        conv_lhs => rw [hsplit]
        rw [collapseWs_nonws_append hall, pyWords_nil]
        simp [collapseWs_nil, spaceJoin]
      | cons e d₂ =>
        have he : isPySpace e = true := by
          have := dropWhile_head_false hd
          simpa using this
        set u := d₂.dropWhile isPySpace with hu
        have hcoll : collapseWs (e :: d₂) = ' ' :: collapseWs u := by
          rw [collapseWs_cons, if_pos he, hu]
        have hwords_u : pyWords (e :: d₂) = pyWords u := by
          rw [pyWords_cons_ws he, hu, pyWords_dropWhile_ws]
        have hdall : ((e :: d₂).takeWhile isPySpace).all isPySpace = true := takeWhile_all ..
        have hdw : List.dropWhile isPySpace (e :: d₂) = u := by
          rw [hu, List.dropWhile_cons, if_pos he]
        have hdsplit : e :: d₂ = (e :: d₂).takeWhile isPySpace ++ u := by
          conv_lhs => rw [← List.takeWhile_append_dropWhile (p := isPySpace) (l := e :: d₂),
            hdw]
        have hs_decomp : c :: rest =
            (c :: rest.takeWhile (fun x => !isPySpace x) ++
              (e :: d₂).takeWhile isPySpace) ++ u := by
          conv_lhs => rw [hsplit, hd, hdsplit]
          simp
        have hune : u ≠ [] := by
          intro hunil
          have hallws : (e :: d₂).all isPySpace = true := by
            apply dropWhile_eq_nil_all
            rw [hdw, hunil]
          obtain ⟨f, fr, hf⟩ := List.exists_cons_of_ne_nil
            (show (e :: d₂).reverse ≠ [] by simp)
          have hwf : isPySpace f = true := by
            have hmem : f ∈ (e :: d₂).reverse := by rw [hf]; exact List.mem_cons_self ..
            rw [List.mem_reverse] at hmem
            exact List.all_eq_true.mp hallws f hmem
          have hrev : (c :: rest).reverse = f ::
              (fr ++ (c :: rest.takeWhile (fun x => !isPySpace x)).reverse) := by
            conv_lhs => rw [hsplit, hd]
            rw [List.reverse_append, hf, List.cons_append]
          rw [hrev] at h2
          have hffalse := head_not_of_dropWhile_self h2
          rw [hwf] at hffalse
          exact Bool.noConfusion hffalse
        have hurev : u.reverse ≠ [] := by
          intro hrn
          exact hune (by rwa [List.reverse_eq_nil_iff] at hrn)
        obtain ⟨m, mr, hm⟩ := List.exists_cons_of_ne_nil hurev
        have hrev2 : (c :: rest).reverse = m :: (mr ++
            (c :: rest.takeWhile (fun x => !isPySpace x) ++
              (e :: d₂).takeWhile isPySpace).reverse) := by
          conv_lhs => rw [hs_decomp]
          rw [List.reverse_append, hm, List.cons_append]
        rw [hrev2] at h2
        have hmws : isPySpace m = false := head_not_of_dropWhile_self h2
        have h2u : u.reverse.dropWhile isPySpace = u.reverse := by
          rw [hm]
          exact dropWhile_cons_false _ hmws
        have h1u : u.dropWhile isPySpace = u := by
          rw [hu]
          exact dropWhile_idem ..
        have hlen_u : u.length ≤ n := by
          have l1 : u.length ≤ d₂.length := by
            rw [hu]
            exact dropWhile_length_le ..
          have l2 : (rest.dropWhile (fun x => !isPySpace x)).length ≤ rest.length :=
            dropWhile_length_le ..
          rw [hd] at l2
          simp only [List.length_cons] at l2 hs
          omega
        have hIH := ih u hlen_u h1u h2u
        obtain ⟨m₀, u₂, hm₀⟩ := List.exists_cons_of_ne_nil hune
        have hm₀ws : isPySpace m₀ = false := by
          have h1v := h1u
          rw [hm₀] at h1v
          exact head_not_of_dropWhile_self h1v
        have hpwne : pyWords u ≠ [] := by
          rw [hm₀, pyWords_cons_not hm₀ws]
          simp
        conv_lhs => rw [hsplit, hd]
        rw [collapseWs_nonws_append hall, hcoll, hIH, hwords_u, spaceJoin_cons hpwne]

theorem clean_text_eq_spaceJoin (s : List Char) : clean_text s = spaceJoin (pyWords s) := by
  unfold clean_text
  rw [collapseWs_stripped (pyStrip s).length (pyStrip s) le_rfl (pyStrip_dropWhile s)
    (pyStrip_reverse_dropWhile s), pyWords_pyStrip]

theorem spaceJoin_length : ∀ ws : List (List Char),
    (spaceJoin ws).length = sumLen ws + ws.length - 1
  | [] => by simp [spaceJoin, sumLen]
  | [w] => by simp [spaceJoin, sumLen]
  | w :: a :: rest => by
    rw [spaceJoin_cons (by simp)]
    have ih := spaceJoin_length (a :: rest)
    have h1 : sumLen (w :: a :: rest) = w.length + sumLen (a :: rest) := by
      simp [sumLen]
    rw [List.length_append, List.length_cons, ih, h1]
    have h2 : sumLen (a :: rest) = a.length + sumLen rest := by simp [sumLen]
    simp only [List.length_cons]
    omega

theorem char_count_eq (s : List Char) :
    char_count s = sumLen (pyWords s) + (pyWords s).length - 1 := by
  unfold char_count
  rw [clean_text_eq_spaceJoin, spaceJoin_length]

theorem char_count_le_of_words {x t : List Char} {rest : List (List Char)}
    (h : pyWords t = pyWords x ++ rest) : char_count x ≤ char_count t := by
  rw [char_count_eq, char_count_eq, h]
  have h1 : sumLen (pyWords x ++ rest) = sumLen (pyWords x) + sumLen rest := by
    simp [sumLen]
  rw [h1, List.length_append]
  omega

theorem estimate_mono {x t : List Char} (h : char_count x ≤ char_count t) :
    estimate_audio_duration x ≤ estimate_audio_duration t := by
  unfold estimate_audio_duration
  rw [Rat.mkRat_eq_div, Rat.mkRat_eq_div]
  have hc : ((char_count x : Int) : ℚ) ≤ ((char_count t : Int) : ℚ) := by
    exact_mod_cast h
  have hp : (0:ℚ) ≤ ((ESTIMATED_CHARS_PER_SECOND : Nat) : ℚ) := by
    norm_num [ESTIMATED_CHARS_PER_SECOND]
  exact div_le_div_of_nonneg_right hc hp

theorem char_count_pyStrip (s : List Char) : char_count (pyStrip s) = char_count s := by
  rw [char_count_eq, char_count_eq, pyWords_pyStrip]

theorem estimate_pyStrip (s : List Char) :
    estimate_audio_duration (pyStrip s) = estimate_audio_duration s := by
  unfold estimate_audio_duration
  rw [char_count_pyStrip]

theorem pyWords_ne_nil_of_char_count {s : List Char} (h : 0 < char_count s) :
    pyWords s ≠ [] := by
  intro hw
  rw [char_count_eq, hw] at h
  simp [sumLen] at h

/-! ## `splitParas` lemmas -/

theorem paraSep_decomp (w : List Char) :
    ∃ wtail, w = (w.reverse.dropWhile (fun x => x != '\n')).reverse ++ wtail ∧
      w.drop (w.reverse.dropWhile (fun x => x != '\n')).reverse.length = wtail := by
  set A := (w.reverse.dropWhile (fun x => x != '\n')).reverse with hA
  set B := (w.reverse.takeWhile (fun x => x != '\n')).reverse with hB
  have h2 : w = A ++ B := by
    conv_lhs => rw [← List.reverse_reverse w]
    rw [← List.takeWhile_append_dropWhile (p := fun x => x != '\n') (l := w.reverse),
      List.reverse_append, hA, hB]
  exact ⟨B, h2, by rw [h2]; exact List.drop_left ..⟩

theorem paraSep_all_ws {rest : List Char} :
    (('\n' :: ((rest.takeWhile isPySpace).reverse.dropWhile
      (fun x => x != '\n')).reverse).all isPySpace) = true := by
  rw [List.all_cons, Bool.and_eq_true]
  constructor
  · rfl
  · rw [List.all_eq_true]
    intro x hx
    rw [List.mem_reverse] at hx
    have hx2 : x ∈ (rest.takeWhile isPySpace).reverse := List.dropWhile_subset _ hx
    rw [List.mem_reverse] at hx2
    exact List.all_eq_true.mp (takeWhile_all ..) x hx2

theorem paraStep_decomp (rest : List Char) :
    '\n' :: rest =
      ('\n' :: ((rest.takeWhile isPySpace).reverse.dropWhile (fun x => x != '\n')).reverse) ++
        ((rest.takeWhile isPySpace).drop
          ((rest.takeWhile isPySpace).reverse.dropWhile (fun x => x != '\n')).reverse.length ++
          rest.dropWhile isPySpace) := by
  obtain ⟨wtail, h1, h2⟩ := paraSep_decomp (rest.takeWhile isPySpace)
  rw [h2, List.cons_append]
  congr 1
  conv_lhs => rw [← List.takeWhile_append_dropWhile (p := isPySpace) (l := rest)]
  conv_lhs => rw [h1]
  rw [List.append_assoc]

theorem splitParasAux_cons_pos {c : Char} {rest : List Char} (acc : List Char)
    (h : c = '\n' ∧ '\n' ∈ rest.takeWhile isPySpace) :
    splitParasAux (c :: rest) acc =
      acc.reverse :: splitParasAux
        ((rest.takeWhile isPySpace).drop
          ((rest.takeWhile isPySpace).reverse.dropWhile (fun x => x != '\n')).reverse.length ++
          rest.dropWhile isPySpace) [] := by
  show splitParasAuxGo (rest.length + 1) (c :: rest) acc = _
  simp only [splitParasAuxGo]
  rw [if_pos h, splitParasAuxGo_congr rest.length _ [] (by
    have h1 := take_drop_length isPySpace rest
    simp only [List.length_append, List.length_drop]
    omega)]

theorem splitParasAux_cons_neg {c : Char} {rest : List Char} (acc : List Char)
    (h : ¬(c = '\n' ∧ '\n' ∈ rest.takeWhile isPySpace)) :
    splitParasAux (c :: rest) acc = splitParasAux rest (c :: acc) := by
  show splitParasAuxGo (rest.length + 1) (c :: rest) acc =
    splitParasAuxGo rest.length rest (c :: acc)
  simp only [splitParasAuxGo]
  rw [if_neg h]

theorem splitParasAux_nil (acc : List Char) : splitParasAux [] acc = [acc.reverse] := rfl

theorem splitParasAux_ne_nil (s acc : List Char) : splitParasAux s acc ≠ [] := by
  induction s, acc using splitParasAux_induction with
  | base acc => simp [splitParasAux_nil]
  | pos acc c rest h ih =>
    rw [splitParasAux_cons_pos acc h]
    simp
  | neg acc c rest h ih =>
    rw [splitParasAux_cons_neg acc h]
    exact ih

theorem splitParasAux_words (s acc : List Char) :
    ((splitParasAux s acc).map pyWords).flatten = pyWords (acc.reverse ++ s) := by
  induction s, acc using splitParasAux_induction with
  | base acc => simp [splitParasAux_nil]
  | pos acc c rest h ih =>
    obtain ⟨hc, hw⟩ := h
    subst hc
    rw [splitParasAux_cons_pos acc ⟨rfl, hw⟩]
    rw [List.map_cons, List.flatten_cons, ih]
    simp only [List.reverse_nil, List.nil_append]
    conv_rhs => rw [paraStep_decomp rest, ← List.append_assoc]
    rw [pyWords_append_sep _ paraSep_all_ws (by simp) _]
  | neg acc c rest h ih =>
    rw [splitParasAux_cons_neg acc h, ih]
    simp

theorem splitParas_words (t : List Char) :
    ((splitParas t).map pyWords).flatten = pyWords t := by
  have h := splitParasAux_words t []
  rwa [List.reverse_nil, List.nil_append] at h

theorem letters_flatten (L : List (List Char)) :
    letters L.flatten = (L.map letters).flatten := by
  induction L with
  | nil => rfl
  | cons a l ih => rw [List.flatten_cons, letters_append, ih, List.map_cons, List.flatten_cons]

theorem flatten_map_flatten {α β : Type} (g : α → List (List β)) :
    ∀ l : List α, (l.map (fun p => (g p).flatten)).flatten = ((l.map g).flatten).flatten
  | [] => rfl
  | a :: l => by
    rw [List.map_cons, List.flatten_cons, List.map_cons, List.flatten_cons,
      List.flatten_append, flatten_map_flatten g l]

theorem splitParas_letters (t : List Char) :
    ((splitParas t).map letters).flatten = letters t := by
  have hfun : letters = fun p => (pyWords p).flatten := funext letters_eq_flatten
  rw [hfun, flatten_map_flatten, splitParas_words]

/-! ## `reSplitCapture`, `pairUp`, and comprehension lemmas -/

theorem reSplitCapture_flatten (p : Char → Bool) (s : List Char) :
    (reSplitCapture p s).flatten = s := by
  induction s using reSplitCapture_induction p with
  | base x h =>
    rw [reSplitCapture_eq_nil h]
    simp only [List.flatten_cons, List.flatten_nil, List.append_nil]
    conv_rhs => rw [← List.takeWhile_append_dropWhile (p := fun c => !p c) (l := x), h]
    rw [List.append_nil]
  | step x c tail h ih =>
    rw [reSplitCapture_eq_cons h]
    simp only [List.flatten_cons, ih]
    conv_rhs => rw [← List.takeWhile_append_dropWhile (p := fun c => !p c) (l := x), h]
    conv_rhs => rw [← List.takeWhile_append_dropWhile (p := p) (l := tail)]
    simp

theorem pairUp_flatten : ∀ l : List (List Char), (pairUp l).flatten = l.flatten
  | [] => rfl
  | [t] => by simp [pairUp]
  | t :: punct :: rest => by
    simp only [pairUp, List.flatten_cons]
    rw [pairUp_flatten rest]
    simp

theorem reSplitCapture_letters (p : Char → Bool) (s : List Char) :
    ((reSplitCapture p s).map letters).flatten = letters s := by
  rw [← letters_flatten, reSplitCapture_flatten]

theorem pairUp_letters (l : List (List Char)) :
    ((pairUp l).map letters).flatten = (l.map letters).flatten := by
  rw [← letters_flatten, ← letters_flatten, pairUp_flatten]

theorem stripNonempty_letters (chunks : List (List Char)) :
    ((stripNonempty chunks).map letters).flatten = (chunks.map letters).flatten := by
  induction chunks with
  | nil => rfl
  | cons a l ih =>
    unfold stripNonempty at ih ⊢
    rw [List.map_cons, List.filter_cons]
    by_cases h : (pyStrip a).isEmpty
    · have ha : letters a = [] := by
        rw [← letters_pyStrip, List.isEmpty_iff.mp h, letters_nil]
      simp only [h, Bool.not_true, if_neg (by simp : ¬(false = true))]
      rw [ih, List.map_cons, List.flatten_cons, ha, List.nil_append]
    · have hb : (pyStrip a).isEmpty = false := by simpa using h
      simp only [hb, Bool.not_false]
      rw [if_pos trivial]
      rw [List.map_cons, List.flatten_cons, ih, List.map_cons, List.flatten_cons,
        letters_pyStrip]

theorem joinSp_letters (cur unit : List Char) :
    letters (joinSp cur unit) = letters cur ++ letters unit := by
  unfold joinSp
  by_cases h : cur.isEmpty
  · rw [if_pos h, List.isEmpty_iff.mp h]
    rfl
  · rw [if_neg h, letters_append, letters_cons_ws (by decide : isPySpace ' ' = true)]

theorem dropLast_getLastD_letters : ∀ l : List (List Char),
    ((l.dropLast).map letters).flatten ++ letters (l.getLastD []) = (l.map letters).flatten
  | [] => by simp [letters_nil]
  | [a] => by simp
  | a :: b :: l => by
    have ih := dropLast_getLastD_letters (b :: l)
    have hgl : (a :: b :: l).getLastD [] = (b :: l).getLastD [] := by
      simp [List.getLastD_cons]
    have hdl : (a :: b :: l).dropLast = a :: (b :: l).dropLast := rfl
    rw [hdl, hgl, List.map_cons, List.flatten_cons, List.append_assoc, ih]
    simp

/-! ## Letters preservation through the chunking loops -/

theorem letters_all (s : List Char) : (letters s).all (fun c => !isPySpace c) = true := by
  rw [List.all_eq_true]
  intro x hx
  exact (List.mem_filter.mp hx).2

theorem letters_idem (s : List Char) : letters (letters s) = letters s :=
  letters_all_not_ws (letters_all s)

theorem words_letters_flatten (s : List Char) :
    ((pyWords s).map letters).flatten = letters s := by
  rw [← letters_flatten, ← letters_eq_flatten, letters_idem]

theorem wordLoop_letters (maxD : ℚ) : ∀ (ws₀ : List (List Char)) (cur : List Char)
    (chunks : List (List Char)),
    ((wordLoop maxD ws₀ cur chunks).map letters).flatten =
      (chunks.map letters).flatten ++ letters cur ++ (ws₀.map letters).flatten
  | [], cur, chunks => by
    simp only [wordLoop]
    by_cases h : cur.isEmpty
    · rw [if_pos h, List.isEmpty_iff.mp h]
      simp [letters_nil]
    · rw [if_neg h]
      simp
  | w :: rest, cur, chunks => by
    simp only [wordLoop]
    by_cases h : estimate_audio_duration (joinSp cur w) ≤ maxD
    · rw [if_pos h, wordLoop_letters maxD rest (joinSp cur w) chunks, joinSp_letters]
      simp [List.append_assoc]
    · rw [if_neg h,
        wordLoop_letters maxD rest w (if cur.isEmpty then chunks else chunks ++ [cur])]
      by_cases hc : cur.isEmpty
      · rw [if_pos hc, List.isEmpty_iff.mp hc]
        simp [letters_nil]
      · rw [if_neg hc]
        simp [List.append_assoc]

theorem split_on_words_letters (text : List Char) (maxD : ℚ) :
    ((split_on_words text maxD).map letters).flatten = letters text := by
  unfold split_on_words
  rw [stripNonempty_letters, wordLoop_letters]
  simp only [List.map_nil, List.flatten_nil, letters_nil, List.nil_append]
  exact words_letters_flatten text

theorem descent_letters (S chunksA : List (List Char)) :
    ((chunksA ++ S.dropLast).map letters).flatten ++ letters (S.getLastD []) =
      (chunksA.map letters).flatten ++ (S.map letters).flatten := by
  rw [List.map_append, List.flatten_append, List.append_assoc, dropLast_getLastD_letters]

theorem clauseLoop_letters (maxD : ℚ) : ∀ (units : List (List Char)) (cur : List Char)
    (chunks : List (List Char)),
    ((clauseLoop maxD units cur chunks).map letters).flatten =
      (chunks.map letters).flatten ++ letters cur ++ (units.map letters).flatten
  | [], cur, chunks => by
    simp only [clauseLoop]
    by_cases h : cur.isEmpty
    · rw [if_pos h, List.isEmpty_iff.mp h]
      simp [letters_nil]
    · rw [if_neg h]
      simp
  | u :: rest, cur, chunks => by
    simp only [clauseLoop]
    have hlu : letters (pyStrip u) = letters u := letters_pyStrip u
    by_cases hemp : (pyStrip u).isEmpty
    · rw [if_pos hemp, clauseLoop_letters maxD rest cur chunks]
      have hu : letters u = [] := by
        rw [← hlu, List.isEmpty_iff.mp hemp]
        rfl
      simp [hu]
    · rw [if_neg hemp]
      by_cases h1 : estimate_audio_duration (joinSp cur (pyStrip u)) ≤ maxD
      · rw [if_pos h1, clauseLoop_letters maxD rest (joinSp cur (pyStrip u)) chunks,
          joinSp_letters, hlu]
        simp [List.append_assoc]
      · rw [if_neg h1]
        by_cases h2 : estimate_audio_duration (pyStrip u) ≤ maxD
        · rw [if_pos h2, clauseLoop_letters maxD rest (pyStrip u) _]
          by_cases hc : cur.isEmpty
          · rw [if_pos hc, List.isEmpty_iff.mp hc]
            simp [letters_nil, hlu, List.append_assoc]
          · rw [if_neg hc]
            simp [hlu, List.append_assoc]
        · rw [if_neg h2, clauseLoop_letters maxD rest _ _, descent_letters]
          rw [split_on_words_letters, hlu]
          by_cases hc : cur.isEmpty
          · rw [if_pos hc, List.isEmpty_iff.mp hc]
            simp [letters_nil, List.append_assoc]
          · rw [if_neg hc]
            simp [List.append_assoc]

theorem split_on_clauses_letters (text : List Char) (maxD : ℚ) :
    ((split_on_clauses text maxD).map letters).flatten = letters text := by
  unfold split_on_clauses
  by_cases h : estimate_audio_duration text ≤ maxD
  · rw [if_pos h]
    simp
  · rw [if_neg h, stripNonempty_letters, clauseLoop_letters]
    simp only [List.map_nil, List.flatten_nil, letters_nil, List.nil_append]
    rw [pairUp_letters, reSplitCapture_letters]

theorem sentenceLoop_letters (maxD : ℚ) : ∀ (units : List (List Char)) (cur : List Char)
    (chunks : List (List Char)),
    ((sentenceLoop maxD units cur chunks).map letters).flatten =
      (chunks.map letters).flatten ++ letters cur ++ (units.map letters).flatten
  | [], cur, chunks => by
    simp only [sentenceLoop]
    by_cases h : cur.isEmpty
    · rw [if_pos h, List.isEmpty_iff.mp h]
      simp [letters_nil]
    · rw [if_neg h]
      simp
  | u :: rest, cur, chunks => by
    simp only [sentenceLoop]
    have hlu : letters (pyStrip u) = letters u := letters_pyStrip u
    by_cases hemp : (pyStrip u).isEmpty
    · rw [if_pos hemp, sentenceLoop_letters maxD rest cur chunks]
      have hu : letters u = [] := by
        rw [← hlu, List.isEmpty_iff.mp hemp]
        rfl
      simp [hu]
    · rw [if_neg hemp]
      by_cases h1 : estimate_audio_duration (joinSp cur (pyStrip u)) ≤ maxD
      · rw [if_pos h1, sentenceLoop_letters maxD rest (joinSp cur (pyStrip u)) chunks,
          joinSp_letters, hlu]
        simp [List.append_assoc]
      · rw [if_neg h1]
        by_cases h2 : estimate_audio_duration (pyStrip u) ≤ maxD
        · rw [if_pos h2, sentenceLoop_letters maxD rest (pyStrip u) _]
          by_cases hc : cur.isEmpty
          · rw [if_pos hc, List.isEmpty_iff.mp hc]
            simp [letters_nil, hlu, List.append_assoc]
          · rw [if_neg hc]
            simp [hlu, List.append_assoc]
        · rw [if_neg h2, sentenceLoop_letters maxD rest _ _, descent_letters]
          rw [split_on_clauses_letters, hlu]
          by_cases hc : cur.isEmpty
          · rw [if_pos hc, List.isEmpty_iff.mp hc]
            simp [letters_nil, List.append_assoc]
          · rw [if_neg hc]
            simp [List.append_assoc]

theorem split_long_text_letters (text : List Char) (maxD : ℚ) :
    ((split_long_text text maxD).map letters).flatten = letters text := by
  unfold split_long_text
  by_cases h : estimate_audio_duration text ≤ maxD
  · rw [if_pos h]
    simp
  · rw [if_neg h, stripNonempty_letters, sentenceLoop_letters]
    simp only [List.map_nil, List.flatten_nil, letters_nil, List.nil_append]
    rw [pairUp_letters, reSplitCapture_letters]

theorem aggressiveLoop_letters (target : ℚ) : ∀ (paras chunks : List (List Char)),
    ((aggressiveLoop target paras chunks).map letters).flatten =
      (chunks.map letters).flatten ++ (paras.map letters).flatten
  | [], chunks => by
    simp [aggressiveLoop]
  | p :: rest, chunks => by
    simp only [aggressiveLoop]
    have hlp : letters (pyStrip p) = letters p := letters_pyStrip p
    by_cases hemp : (pyStrip p).isEmpty
    · rw [if_pos hemp, aggressiveLoop_letters target rest chunks]
      have hp : letters p = [] := by
        rw [← hlp, List.isEmpty_iff.mp hemp]
        rfl
      simp [hp]
    · rw [if_neg hemp]
      by_cases h1 : estimate_audio_duration (pyStrip p) ≤ target
      · rw [if_pos h1, aggressiveLoop_letters target rest _]
        simp [hlp, List.append_assoc]
      · rw [if_neg h1]
        by_cases h2 : estimate_audio_duration (pyStrip p) ≤ MAX_DURATION_HARD_LIMIT
        · rw [if_pos h2, aggressiveLoop_letters target rest _]
          simp only [List.map_append, List.flatten_append, split_long_text_letters, hlp,
            List.map_cons, List.flatten_cons, List.append_assoc]
        · rw [if_neg h2, aggressiveLoop_letters target rest _]
          simp only [List.map_append, List.flatten_append, split_long_text_letters, hlp,
            List.map_cons, List.flatten_cons, List.append_assoc]

theorem aggressive_chunking_letters (text : List Char) (target : ℚ) :
    ((aggressive_chunking text target).map letters).flatten = letters text := by
  unfold aggressive_chunking
  rw [stripNonempty_letters, aggressiveLoop_letters]
  simp only [List.map_nil, List.flatten_nil, List.nil_append]
  exact splitParas_letters text

theorem join2NL_letters (cur p : List Char) :
    letters (cur ++ '\n' :: '\n' :: p) = letters cur ++ letters p := by
  rw [letters_append, letters_cons_ws (by decide : isPySpace '\n' = true),
    letters_cons_ws (by decide : isPySpace '\n' = true)]

theorem gentleParaLoop_letters : ∀ (paras : List (List Char)) (cur : List Char)
    (chunks : List (List Char)),
    ((gentleParaLoop paras cur chunks).map letters).flatten =
      (chunks.map letters).flatten ++ letters cur ++ (paras.map letters).flatten
  | [], cur, chunks => by
    simp only [gentleParaLoop]
    by_cases h : cur.isEmpty
    · rw [if_pos h, List.isEmpty_iff.mp h]
      simp [letters_nil]
    · rw [if_neg h]
      simp
  | p :: rest, cur, chunks => by
    simp only [gentleParaLoop]
    have hlp : letters (pyStrip p) = letters p := letters_pyStrip p
    by_cases hemp : (pyStrip p).isEmpty
    · rw [if_pos hemp, gentleParaLoop_letters rest cur chunks]
      have hp : letters p = [] := by
        rw [← hlp, List.isEmpty_iff.mp hemp]
        rfl
      simp [hp]
    · rw [if_neg hemp]
      by_cases hc : cur.isEmpty
      · rw [if_pos hc]
        by_cases h1 : estimate_audio_duration (pyStrip p) ≤ MAX_DURATION_HARD_LIMIT
        · rw [if_pos h1, gentleParaLoop_letters rest (pyStrip p) chunks, List.isEmpty_iff.mp hc]
          simp [hlp, letters_nil, List.append_assoc]
        · rw [if_neg h1, if_pos hc, gentleParaLoop_letters rest (pyStrip p) chunks,
            List.isEmpty_iff.mp hc]
          simp [hlp, letters_nil, List.append_assoc]
      · rw [if_neg hc]
        by_cases h1 : estimate_audio_duration (cur ++ '\n' :: '\n' :: pyStrip p) ≤
            MAX_DURATION_HARD_LIMIT
        · rw [if_pos h1, gentleParaLoop_letters rest _ chunks, join2NL_letters, hlp]
          simp [List.append_assoc]
        · rw [if_neg h1, if_neg hc, gentleParaLoop_letters rest (pyStrip p) _]
          simp [hlp, List.append_assoc]

theorem gentleSentLoop_letters : ∀ (units : List (List Char)) (cur : List Char)
    (chunks : List (List Char)),
    ((gentleSentLoop units cur chunks).map letters).flatten =
      (chunks.map letters).flatten ++ letters cur ++ (units.map letters).flatten
  | [], cur, chunks => by
    simp only [gentleSentLoop]
    by_cases h : cur.isEmpty
    · rw [if_pos h, List.isEmpty_iff.mp h]
      simp [letters_nil]
    · rw [if_neg h]
      simp
  | u :: rest, cur, chunks => by
    simp only [gentleSentLoop]
    have hlu : letters (pyStrip u) = letters u := letters_pyStrip u
    by_cases hemp : (pyStrip u).isEmpty
    · rw [if_pos hemp, gentleSentLoop_letters rest cur chunks]
      have hu : letters u = [] := by
        rw [← hlu, List.isEmpty_iff.mp hemp]
        rfl
      simp [hu]
    · rw [if_neg hemp]
      by_cases h1 : (!cur.isEmpty : Bool) ∧ MAX_DURATION_HARD_LIMIT <
          estimate_audio_duration (joinSp cur (pyStrip u))
      · rw [if_pos h1, gentleSentLoop_letters rest (pyStrip u) (chunks ++ [cur])]
        simp [hlu, List.append_assoc]
      · rw [if_neg h1, gentleSentLoop_letters rest (joinSp cur (pyStrip u)) chunks,
          joinSp_letters, hlu]
        simp [List.append_assoc]

theorem try_gentle_chunking_letters (text : List Char) (c : ℚ) :
    try_gentle_chunking text c = [] ∨
      ((try_gentle_chunking text c).map letters).flatten = letters text := by
  unfold try_gentle_chunking
  by_cases hp : 1 < (splitParas text).length
  · right
    rw [if_pos hp, stripNonempty_letters, gentleParaLoop_letters]
    simp only [List.map_nil, List.flatten_nil, letters_nil, List.nil_append]
    exact splitParas_letters text
  · rw [if_neg hp]
    by_cases hs : 2 < (reSplitCapture isSentencePunct text).length
    · rw [if_pos hs]
      by_cases hl : 1 < (gentleSentLoop (pairUp (reSplitCapture isSentencePunct text))
          [] []).length
      · right
        rw [if_pos hl, stripNonempty_letters, gentleSentLoop_letters]
        simp only [List.map_nil, List.flatten_nil, letters_nil, List.nil_append]
        rw [pairUp_letters, reSplitCapture_letters]
      · left
        rw [if_neg hl]
    · left
      rw [if_neg hs]

theorem chunk_text_smartly_letters (text : List Char) (c : ℚ) :
    ((chunk_text_smartly text c).map letters).flatten = letters text := by
  unfold chunk_text_smartly
  by_cases h1 : estimate_audio_duration text ≤ c
  · rw [if_pos h1]
    simp [letters_pyStrip]
  · rw [if_neg h1]
    by_cases h2 : estimate_audio_duration text ≤ MAX_DURATION_HARD_LIMIT
    · rw [if_pos h2]
      rcases try_gentle_chunking_letters text c with hg | hg
      · rw [hg]
        simp [letters_pyStrip]
      · by_cases hl : 1 < (try_gentle_chunking text c).length
        · rw [if_pos hl]
          exact hg
        · rw [if_neg hl]
          simp [letters_pyStrip]
    · rw [if_neg h2]
      exact aggressive_chunking_letters text c

/-! ## Segment-size invariants of the aggressive chunker -/

theorem getLastD_mem_or_nil {α : Type} : ∀ (l : List α) (d : α), l = [] ∨ l.getLastD d ∈ l
  | [], d => Or.inl rfl
  | a :: l, d => by
    right
    rw [List.getLastD_cons]
    rcases getLastD_mem_or_nil l a with h | h
    · subst h
      simp
    · exact List.mem_cons_of_mem _ h

theorem pyStrip_sublist_all {x : List Char} {p : Char → Bool} (h : x.all p = true) :
    (pyStrip x).all p = true := by
  rw [List.all_eq_true] at h ⊢
  intro a ha
  obtain ⟨u, v, _, _, hx⟩ := pyStrip_decomp x
  exact h a (by rw [hx]; simp [ha])

theorem mem_stripNonempty {s : List Char} {l : List (List Char)} (h : s ∈ stripNonempty l) :
    (∃ x ∈ l, s = pyStrip x) ∧ s ≠ [] := by
  unfold stripNonempty at h
  obtain ⟨h1, h2⟩ := List.mem_filter.mp h
  obtain ⟨x, hx, rfl⟩ := List.mem_map.mp h1
  refine ⟨⟨x, hx, rfl⟩, ?_⟩
  intro hnil
  rw [hnil] at h2
  simp at h2

theorem good_pyStrip {maxD : ℚ} {x : List Char}
    (h : estimate_audio_duration x ≤ maxD ∨ x.all (fun c => !isPySpace c) = true) :
    estimate_audio_duration (pyStrip x) ≤ maxD ∨
      (pyStrip x).all (fun c => !isPySpace c) = true := by
  rcases h with h | h
  · left
    rwa [estimate_pyStrip]
  · right
    exact pyStrip_sublist_all h

theorem wordLoop_good (maxD : ℚ) : ∀ (ws₀ : List (List Char)) (cur : List Char)
    (chunks : List (List Char)),
    (∀ w ∈ ws₀, w.all (fun c => !isPySpace c) = true) →
    (cur = [] ∨ estimate_audio_duration cur ≤ maxD ∨
      cur.all (fun c => !isPySpace c) = true) →
    (∀ s ∈ chunks, estimate_audio_duration s ≤ maxD ∨
      s.all (fun c => !isPySpace c) = true) →
    ∀ s ∈ wordLoop maxD ws₀ cur chunks,
      estimate_audio_duration s ≤ maxD ∨ s.all (fun c => !isPySpace c) = true
  | [], cur, chunks => by
    intro hws hcur hch s hs
    simp only [wordLoop] at hs
    by_cases h : cur.isEmpty
    · rw [if_pos h] at hs
      exact hch s hs
    · rw [if_neg h] at hs
      rcases List.mem_append.mp hs with h2 | h2
      · exact hch s h2
      · rw [List.mem_singleton.mp h2]
        rcases hcur with hc | hc
        · rw [hc] at h
          simp at h
        · exact hc
  | w :: rest, cur, chunks => by
    intro hws hcur hch s hs
    simp only [wordLoop] at hs
    by_cases h : estimate_audio_duration (joinSp cur w) ≤ maxD
    · rw [if_pos h] at hs
      exact wordLoop_good maxD rest (joinSp cur w) chunks
        (fun x hx => hws x (List.mem_cons_of_mem _ hx)) (Or.inr (Or.inl h)) hch s hs
    · rw [if_neg h] at hs
      refine wordLoop_good maxD rest w _
        (fun x hx => hws x (List.mem_cons_of_mem _ hx))
        (Or.inr (Or.inr (hws w (List.mem_cons_self ..)))) ?_ s hs
      by_cases hc : cur.isEmpty
      · rw [if_pos hc]
        exact hch
      · rw [if_neg hc]
        intro x hx
        rcases List.mem_append.mp hx with h2 | h2
        · exact hch x h2
        · rw [List.mem_singleton.mp h2]
          rcases hcur with hc2 | hc2
          · rw [hc2] at hc
            simp at hc
          · exact hc2

theorem split_on_words_good (text : List Char) (maxD : ℚ) :
    ∀ s ∈ split_on_words text maxD,
      estimate_audio_duration s ≤ maxD ∨ s.all (fun c => !isPySpace c) = true := by
  intro s hs
  obtain ⟨⟨x, hx, rfl⟩, hne⟩ := mem_stripNonempty hs
  exact good_pyStrip (wordLoop_good maxD (pyWords text) [] []
    (fun w hw => (pyWords_mem w hw).2) (Or.inl rfl) (by simp) x hx)

theorem clauseLoop_good (maxD : ℚ) : ∀ (units : List (List Char)) (cur : List Char)
    (chunks : List (List Char)),
    (cur = [] ∨ estimate_audio_duration cur ≤ maxD ∨
      cur.all (fun c => !isPySpace c) = true) →
    (∀ s ∈ chunks, estimate_audio_duration s ≤ maxD ∨
      s.all (fun c => !isPySpace c) = true) →
    ∀ s ∈ clauseLoop maxD units cur chunks,
      estimate_audio_duration s ≤ maxD ∨ s.all (fun c => !isPySpace c) = true
  | [], cur, chunks => by
    intro hcur hch s hs
    simp only [clauseLoop] at hs
    by_cases h : cur.isEmpty
    · rw [if_pos h] at hs
      exact hch s hs
    · rw [if_neg h] at hs
      rcases List.mem_append.mp hs with h2 | h2
      · exact hch s h2
      · rw [List.mem_singleton.mp h2]
        rcases hcur with hc | hc
        · rw [hc] at h
          simp at h
        · exact hc
  | u :: rest, cur, chunks => by
    intro hcur hch s hs
    simp only [clauseLoop] at hs
    by_cases hemp : (pyStrip u).isEmpty
    · rw [if_pos hemp] at hs
      exact clauseLoop_good maxD rest cur chunks hcur hch s hs
    · rw [if_neg hemp] at hs
      have hch₁ : ∀ x ∈ (if cur.isEmpty then chunks else chunks ++ [cur]),
          estimate_audio_duration x ≤ maxD ∨ x.all (fun c => !isPySpace c) = true := by
        by_cases hc : cur.isEmpty
        · rw [if_pos hc]
          exact hch
        · rw [if_neg hc]
          intro x hx
          rcases List.mem_append.mp hx with h2 | h2
          · exact hch x h2
          · rw [List.mem_singleton.mp h2]
            rcases hcur with hc2 | hc2
            · rw [hc2] at hc
              simp at hc
            · exact hc2
      by_cases h1 : estimate_audio_duration (joinSp cur (pyStrip u)) ≤ maxD
      · rw [if_pos h1] at hs
        exact clauseLoop_good maxD rest (joinSp cur (pyStrip u)) chunks
          (Or.inr (Or.inl h1)) hch s hs
      · rw [if_neg h1] at hs
        by_cases h2 : estimate_audio_duration (pyStrip u) ≤ maxD
        · rw [if_pos h2] at hs
          exact clauseLoop_good maxD rest (pyStrip u) _ (Or.inr (Or.inl h2)) hch₁ s hs
        · rw [if_neg h2] at hs
          have hS := split_on_words_good (pyStrip u) maxD
          refine clauseLoop_good maxD rest _ _ ?_ ?_ s hs
          · rcases getLastD_mem_or_nil (split_on_words (pyStrip u) maxD) [] with hn | hm
            · rw [hn]
              exact Or.inl rfl
            · exact Or.inr (hS _ hm)
          · intro x hx
            rcases List.mem_append.mp hx with h3 | h3
            · exact hch₁ x h3
            · exact hS x (List.dropLast_subset _ h3)

theorem split_on_clauses_good (text : List Char) (maxD : ℚ) :
    ∀ s ∈ split_on_clauses text maxD,
      estimate_audio_duration s ≤ maxD ∨ s.all (fun c => !isPySpace c) = true := by
  unfold split_on_clauses
  by_cases h : estimate_audio_duration text ≤ maxD
  · rw [if_pos h]
    intro s hs
    rw [List.mem_singleton.mp hs]
    exact Or.inl h
  · rw [if_neg h]
    intro s hs
    obtain ⟨⟨x, hx, rfl⟩, hne⟩ := mem_stripNonempty hs
    exact good_pyStrip (clauseLoop_good maxD _ [] [] (Or.inl rfl) (by simp) x hx)

theorem sentenceLoop_good (maxD : ℚ) : ∀ (units : List (List Char)) (cur : List Char)
    (chunks : List (List Char)),
    (cur = [] ∨ estimate_audio_duration cur ≤ maxD ∨
      cur.all (fun c => !isPySpace c) = true) →
    (∀ s ∈ chunks, estimate_audio_duration s ≤ maxD ∨
      s.all (fun c => !isPySpace c) = true) →
    ∀ s ∈ sentenceLoop maxD units cur chunks,
      estimate_audio_duration s ≤ maxD ∨ s.all (fun c => !isPySpace c) = true
  | [], cur, chunks => by
    intro hcur hch s hs
    simp only [sentenceLoop] at hs
    by_cases h : cur.isEmpty
    · rw [if_pos h] at hs
      exact hch s hs
    · rw [if_neg h] at hs
      rcases List.mem_append.mp hs with h2 | h2
      · exact hch s h2
      · rw [List.mem_singleton.mp h2]
        rcases hcur with hc | hc
        · rw [hc] at h
          simp at h
        · exact hc
  | u :: rest, cur, chunks => by
    intro hcur hch s hs
    simp only [sentenceLoop] at hs
    by_cases hemp : (pyStrip u).isEmpty
    · rw [if_pos hemp] at hs
      exact sentenceLoop_good maxD rest cur chunks hcur hch s hs
    · rw [if_neg hemp] at hs
      have hch₁ : ∀ x ∈ (if cur.isEmpty then chunks else chunks ++ [cur]),
          estimate_audio_duration x ≤ maxD ∨ x.all (fun c => !isPySpace c) = true := by
        by_cases hc : cur.isEmpty
        · rw [if_pos hc]
          exact hch
        · rw [if_neg hc]
          intro x hx
          rcases List.mem_append.mp hx with h2 | h2
          · exact hch x h2
          · rw [List.mem_singleton.mp h2]
            rcases hcur with hc2 | hc2
            · rw [hc2] at hc
              simp at hc
            · exact hc2
      by_cases h1 : estimate_audio_duration (joinSp cur (pyStrip u)) ≤ maxD
      · rw [if_pos h1] at hs
        exact sentenceLoop_good maxD rest (joinSp cur (pyStrip u)) chunks
          (Or.inr (Or.inl h1)) hch s hs
      · rw [if_neg h1] at hs
        by_cases h2 : estimate_audio_duration (pyStrip u) ≤ maxD
        · rw [if_pos h2] at hs
          exact sentenceLoop_good maxD rest (pyStrip u) _ (Or.inr (Or.inl h2)) hch₁ s hs
        · rw [if_neg h2] at hs
          have hS := split_on_clauses_good (pyStrip u) maxD
          refine sentenceLoop_good maxD rest _ _ ?_ ?_ s hs
          · rcases getLastD_mem_or_nil (split_on_clauses (pyStrip u) maxD) [] with hn | hm
            · rw [hn]
              exact Or.inl rfl
            · exact Or.inr (hS _ hm)
          · intro x hx
            rcases List.mem_append.mp hx with h3 | h3
            · exact hch₁ x h3
            · exact hS x (List.dropLast_subset _ h3)

theorem split_long_text_good (text : List Char) (maxD : ℚ) :
    ∀ s ∈ split_long_text text maxD,
      estimate_audio_duration s ≤ maxD ∨ s.all (fun c => !isPySpace c) = true := by
  unfold split_long_text
  by_cases h : estimate_audio_duration text ≤ maxD
  · rw [if_pos h]
    intro s hs
    rw [List.mem_singleton.mp hs]
    exact Or.inl h
  · rw [if_neg h]
    intro s hs
    obtain ⟨⟨x, hx, rfl⟩, hne⟩ := mem_stripNonempty hs
    exact good_pyStrip (sentenceLoop_good maxD _ [] [] (Or.inl rfl) (by simp) x hx)

theorem aggressiveLoop_good (target : ℚ) (htarget : target ≤ MAX_DURATION_HARD_LIMIT) :
    ∀ (paras chunks : List (List Char)),
    (∀ s ∈ chunks, estimate_audio_duration s ≤ MAX_DURATION_HARD_LIMIT ∨
      s.all (fun c => !isPySpace c) = true) →
    ∀ s ∈ aggressiveLoop target paras chunks,
      estimate_audio_duration s ≤ MAX_DURATION_HARD_LIMIT ∨
        s.all (fun c => !isPySpace c) = true
  | [], chunks => by
    intro hch s hs
    simp only [aggressiveLoop] at hs
    exact hch s hs
  | p :: rest, chunks => by
    intro hch s hs
    simp only [aggressiveLoop] at hs
    have hmono : ∀ x : List Char, estimate_audio_duration x ≤ target ∨
        x.all (fun c => !isPySpace c) = true →
        estimate_audio_duration x ≤ MAX_DURATION_HARD_LIMIT ∨
          x.all (fun c => !isPySpace c) = true := by
      intro x hx
      rcases hx with hx | hx
      · exact Or.inl (hx.trans htarget)
      · exact Or.inr hx
    by_cases hemp : (pyStrip p).isEmpty
    · rw [if_pos hemp] at hs
      exact aggressiveLoop_good target htarget rest chunks hch s hs
    · rw [if_neg hemp] at hs
      by_cases h1 : estimate_audio_duration (pyStrip p) ≤ target
      · rw [if_pos h1] at hs
        refine aggressiveLoop_good target htarget rest _ ?_ s hs
        intro x hx
        rcases List.mem_append.mp hx with h2 | h2
        · exact hch x h2
        · rw [List.mem_singleton.mp h2]
          exact Or.inl (h1.trans htarget)
      · rw [if_neg h1] at hs
        have hext : ∀ x ∈ chunks ++ split_long_text (pyStrip p) target,
            estimate_audio_duration x ≤ MAX_DURATION_HARD_LIMIT ∨
              x.all (fun c => !isPySpace c) = true := by
          intro x hx
          rcases List.mem_append.mp hx with h2 | h2
          · exact hch x h2
          · exact hmono x (split_long_text_good (pyStrip p) target x h2)
        by_cases h2 : estimate_audio_duration (pyStrip p) ≤ MAX_DURATION_HARD_LIMIT
        · rw [if_pos h2] at hs
          exact aggressiveLoop_good target htarget rest _ hext s hs
        · rw [if_neg h2] at hs
          exact aggressiveLoop_good target htarget rest _ hext s hs

theorem aggressive_chunking_good (text : List Char) (target : ℚ)
    (htarget : target ≤ MAX_DURATION_HARD_LIMIT) :
    ∀ s ∈ aggressive_chunking text target, s ≠ [] ∧
      (estimate_audio_duration s ≤ MAX_DURATION_HARD_LIMIT ∨
        s.all (fun c => !isPySpace c) = true) := by
  intro s hs
  unfold aggressive_chunking at hs
  obtain ⟨⟨x, hx, rfl⟩, hne⟩ := mem_stripNonempty hs
  refine ⟨hne, ?_⟩
  have hg := aggressiveLoop_good target htarget (splitParas text) [] (by simp) x hx
  rcases hg with h | h
  · left
    rwa [estimate_pyStrip]
  · right
    exact pyStrip_sublist_all h

/-! ## The gentle tier never splits at paragraph level under the hard limit -/

theorem pyWords_nil_of_strip_nil {p : List Char} (h : pyStrip p = []) : pyWords p = [] := by
  rw [← pyWords_pyStrip, h, pyWords_nil]

theorem estimate_le_of_words_decomp {x t : List Char} {rest : List (List Char)}
    (h : pyWords t = pyWords x ++ rest)
    (ht : estimate_audio_duration t ≤ MAX_DURATION_HARD_LIMIT) :
    estimate_audio_duration x ≤ MAX_DURATION_HARD_LIMIT :=
  (estimate_mono (char_count_le_of_words h)).trans ht

theorem gentleParaLoop_single (t : List Char)
    (htle : estimate_audio_duration t ≤ MAX_DURATION_HARD_LIMIT) :
    ∀ (paras : List (List Char)) (cur : List Char) (chunks : List (List Char)),
    pyWords cur ++ ((paras.map pyWords)).flatten = pyWords t →
    ∃ r : List (List Char), gentleParaLoop paras cur chunks = chunks ++ r ∧ r.length ≤ 1
  | [], cur, chunks => by
    intro hinv
    simp only [gentleParaLoop]
    by_cases h : cur.isEmpty
    · rw [if_pos h]
      exact ⟨[], by simp, by simp⟩
    · rw [if_neg h]
      exact ⟨[cur], rfl, by simp⟩
  | p :: rest, cur, chunks => by
    intro hinv
    simp only [gentleParaLoop]
    rw [List.map_cons, List.flatten_cons] at hinv
    by_cases hemp : (pyStrip p).isEmpty
    · rw [if_pos hemp]
      refine gentleParaLoop_single t htle rest cur chunks ?_
      rw [pyWords_nil_of_strip_nil (List.isEmpty_iff.mp hemp)] at hinv
      rw [← hinv]
      simp
    · rw [if_neg hemp]
      by_cases hc : cur.isEmpty
      · rw [if_pos hc]
        have hcur0 : cur = [] := List.isEmpty_iff.mp hc
        subst hcur0
        rw [pyWords_nil, List.nil_append] at hinv
        have hwtest : pyWords (pyStrip p) = pyWords p := pyWords_pyStrip p
        have hest : estimate_audio_duration (pyStrip p) ≤ MAX_DURATION_HARD_LIMIT := by
          refine @estimate_le_of_words_decomp _ _ ((rest.map pyWords).flatten) ?_ htle
          rw [hwtest, hinv]
        rw [if_pos hest]
        refine gentleParaLoop_single t htle rest (pyStrip p) chunks ?_
        rw [hwtest, hinv]
      · rw [if_neg hc]
        have hjoin : cur ++ '\n' :: '\n' :: pyStrip p =
            cur ++ ['\n', '\n'] ++ pyStrip p := by simp
        have hwtest : pyWords (cur ++ '\n' :: '\n' :: pyStrip p) =
            pyWords cur ++ pyWords p := by
          rw [hjoin, pyWords_append_sep cur (by decide) (by simp), pyWords_pyStrip]
        have hest : estimate_audio_duration (cur ++ '\n' :: '\n' :: pyStrip p) ≤
            MAX_DURATION_HARD_LIMIT := by
          refine @estimate_le_of_words_decomp _ _ ((rest.map pyWords).flatten) ?_ htle
          rw [hwtest, ← hinv]
          simp
        rw [if_pos hest]
        refine gentleParaLoop_single t htle rest (cur ++ '\n' :: '\n' :: pyStrip p) chunks ?_
        rw [hwtest, ← hinv]
        simp

theorem stripNonempty_length_le (l : List (List Char)) :
    (stripNonempty l).length ≤ l.length := by
  unfold stripNonempty
  calc ((l.map pyStrip).filter (fun c => !c.isEmpty)).length
      ≤ (l.map pyStrip).length := List.length_filter_le ..
    _ = l.length := List.length_map ..

theorem try_gentle_chunking_len (text : List Char) (c : ℚ)
    (hle : estimate_audio_duration text ≤ MAX_DURATION_HARD_LIMIT)
    (hpara : 1 < (splitParas text).length) :
    (try_gentle_chunking text c).length ≤ 1 := by
  unfold try_gentle_chunking
  rw [if_pos hpara]
  obtain ⟨r, hr, hlen⟩ := gentleParaLoop_single text hle (splitParas text) [] []
    (by rw [pyWords_nil, List.nil_append]; exact splitParas_words text)
  rw [hr, List.nil_append]
  exact (stripNonempty_length_le r).trans hlen

theorem splitParasAux_sep_two (v : List Char) : ∀ (u acc : List Char),
    2 ≤ (splitParasAux (u ++ '\n' :: '\n' :: v) acc).length
  | [], acc => by
    rw [List.nil_append]
    have hcond : ('\n' : Char) = '\n' ∧ '\n' ∈ ('\n' :: v).takeWhile isPySpace := by
      refine ⟨rfl, ?_⟩
      rw [List.takeWhile_cons, if_pos (by decide : isPySpace '\n' = true)]
      exact List.mem_cons_self ..
    rw [splitParasAux_cons_pos acc hcond]
    have := splitParasAux_ne_nil
      ((('\n' :: v).takeWhile isPySpace).drop
        ((('\n' :: v).takeWhile isPySpace).reverse.dropWhile
          (fun x => x != '\n')).reverse.length ++ ('\n' :: v).dropWhile isPySpace) []
    have hpos := List.length_pos.mpr this
    simp only [List.length_cons]
    omega
  | a :: u, acc => by
    rw [List.cons_append]
    by_cases h : a = '\n' ∧ '\n' ∈ (u ++ '\n' :: '\n' :: v).takeWhile isPySpace
    · rw [splitParasAux_cons_pos acc h]
      have := splitParasAux_ne_nil
        (((u ++ '\n' :: '\n' :: v).takeWhile isPySpace).drop
          (((u ++ '\n' :: '\n' :: v).takeWhile isPySpace).reverse.dropWhile
            (fun x => x != '\n')).reverse.length ++
          (u ++ '\n' :: '\n' :: v).dropWhile isPySpace) []
      have hpos := List.length_pos.mpr this
      simp only [List.length_cons]
      omega
    · rw [splitParasAux_cons_neg acc h]
      exact splitParasAux_sep_two v u (a :: acc)

theorem splitParas_two_of_sep {t u v : List Char} (h : t = u ++ '\n' :: '\n' :: v) :
    1 < (splitParas t).length := by
  rw [h]
  exact splitParasAux_sep_two v u []

/-! ## Queue and batch loop unrollings -/

theorem queue_consumer_run_spec {α : Type} : ∀ (jobs : List (Except String α))
    (st : WorkerState α),
    queue_consumer_run st jobs =
      ⟨st.resolved ++ jobs, st.total_jobs_processed + (jobs.filter exceptOk).length⟩
  | [], st => by
    simp [queue_consumer_run]
  | j :: rest, st => by
    have hstep : queue_consumer_run st (j :: rest) =
        queue_consumer_run (consumeJob st j) rest := rfl
    rw [hstep, queue_consumer_run_spec rest (consumeJob st j)]
    cases j with
    | ok r =>
      simp only [consumeJob, WorkerState.mk.injEq, List.filter_cons]
      refine ⟨by simp, ?_⟩
      rw [if_pos (by simp [exceptOk])]
      simp only [List.length_cons]
      omega
    | error e =>
      simp only [consumeJob, WorkerState.mk.injEq, List.filter_cons]
      refine ⟨by simp, ?_⟩
      simp [exceptOk]

theorem batchLoop_spec (sr : Nat) : ∀ (outcomes : List (Except String (String × ℚ)))
    (results : List TTSResultSlot) (total : ℚ),
    batchLoop sr outcomes results total =
      (results ++ outcomes.map (batchSlot sr), total + (outcomes.map okDuration).sum)
  | [], results, total => by
    simp [batchLoop]
  | .ok (b64, d) :: rest, results, total => by
    rw [batchLoop, batchLoop_spec sr rest]
    simp only [List.map_cons, List.sum_cons, batchSlot, okDuration]
    refine congrArg₂ Prod.mk (by simp) (by ring)
  | .error e :: rest, results, total => by
    rw [batchLoop, batchLoop_spec sr rest]
    simp only [List.map_cons, List.sum_cons, batchSlot, okDuration]
    refine congrArg₂ Prod.mk (by simp) (by ring)

/-! # Claim theorems -/

/-- C1: for every input text whose estimated duration (whitespace-normalized
character count divided by 12) is at most `comfortable_duration`,
`_chunk_text_smartly` returns exactly one segment, equal to the input with
leading and trailing whitespace removed. -/
theorem claim_C1 (text : List Char) (comfortable_duration : ℚ)
    (h : estimate_audio_duration text ≤ comfortable_duration) :
    chunk_text_smartly text comfortable_duration = [pyStrip text] := by
  unfold chunk_text_smartly
  rw [if_pos h]

theorem claim_C1_witness :
    estimate_audio_duration exShort ≤ COMFORTABLE_DURATION ∧
      chunk_text_smartly exShort COMFORTABLE_DURATION = [pyStrip exShort] :=
  ⟨by decide, claim_C1 exShort COMFORTABLE_DURATION (by decide)⟩

/-- C2: for every input text over the hard limit (tier 3, aggressive
chunking, target duration at most the hard limit), every returned segment
either estimates within the hard limit or is a single whitespace-free token
whose own estimate exceeds the hard limit. -/
theorem claim_C2 (text : List Char) (comfortable_duration : ℚ)
    (htarget : comfortable_duration ≤ MAX_DURATION_HARD_LIMIT)
    (h : MAX_DURATION_HARD_LIMIT < estimate_audio_duration text) :
    ∀ s ∈ chunk_text_smartly text comfortable_duration,
      estimate_audio_duration s ≤ MAX_DURATION_HARD_LIMIT ∨
        (isSingleToken s = true ∧
          MAX_DURATION_HARD_LIMIT < estimate_audio_duration s) := by
  intro s hs
  unfold chunk_text_smartly at hs
  rw [if_neg (not_le.mpr (lt_of_le_of_lt htarget h)), if_neg (not_le.mpr h)] at hs
  obtain ⟨hne, hgood⟩ := aggressive_chunking_good text comfortable_duration htarget s hs
  by_cases hle : estimate_audio_duration s ≤ MAX_DURATION_HARD_LIMIT
  · exact Or.inl hle
  · right
    refine ⟨?_, not_le.mp hle⟩
    rcases hgood with hg | hg
    · exact absurd hg hle
    · unfold isSingleToken
      rw [Bool.and_eq_true]
      exact ⟨by simpa using hne, hg⟩

theorem claim_C2_witness :
    COMFORTABLE_DURATION ≤ MAX_DURATION_HARD_LIMIT ∧
    MAX_DURATION_HARD_LIMIT < estimate_audio_duration exLongToken ∧
    (estimate_audio_duration exLongToken ≤ MAX_DURATION_HARD_LIMIT ∨
      (isSingleToken exLongToken = true ∧
        MAX_DURATION_HARD_LIMIT < estimate_audio_duration exLongToken)) :=
  ⟨by decide, by decide,
    claim_C2 exLongToken COMFORTABLE_DURATION (by decide) (by decide) exLongToken (by decide)⟩

/-- C6 as stated is false on the code: splitting `exDotToken` (240 x's, a
period, 241 y's — a single whitespace-free word) crosses the sentence
boundary inside the token, so the concatenated word sequence of the
returned segments differs from the original word sequence. -/
theorem claim_C6_counterexample :
    ((chunk_text_smartly exDotToken COMFORTABLE_DURATION).map pyWords).flatten ≠
      pyWords exDotToken := by decide

/-- C6 amended: joining the segments returned by the chunker preserves the
original text's sequence of non-whitespace characters (nothing is dropped,
duplicated or reordered); the word sequence itself may change because a
whitespace-free token can be split at sentence or clause punctuation. -/
theorem claim_C6_amended (text : List Char) (comfortable_duration : ℚ) :
    ((chunk_text_smartly text comfortable_duration).map letters).flatten = letters text :=
  chunk_text_smartly_letters text comfortable_duration

/-- C7 as stated is false on the code: a two-paragraph input whose
paragraphs each estimate to exactly 30 seconds is split beyond the two
paragraphs whenever a paragraph has an internal break point, because a 30s
paragraph exceeds the 25s target and is further split by
`_split_long_text`. -/
theorem claim_C7_counterexample :
    estimate_audio_duration exParaAB = 30 ∧
    estimate_audio_duration exParaCD = 30 ∧
    MAX_DURATION_HARD_LIMIT < estimate_audio_duration exTwoPara ∧
    (chunk_text_smartly exTwoPara COMFORTABLE_DURATION).length ≠ 2 := by decide

/-- C7 amended: for a two-paragraph input over the hard limit in which each
paragraph is a single indivisible 30s token (no whitespace, sentence or
clause punctuation inside), the chunker returns exactly 2 segments, the two
paragraphs. -/
theorem claim_C7_amended :
    estimate_audio_duration (List.replicate 360 'a') = 30 ∧
    estimate_audio_duration (List.replicate 360 'b') = 30 ∧
    MAX_DURATION_HARD_LIMIT < estimate_audio_duration exTwoTokenPara ∧
    chunk_text_smartly exTwoTokenPara COMFORTABLE_DURATION =
      [List.replicate 360 'a', List.replicate 360 'b'] := by decide

/-- C8: when a text is over the hard limit and therefore chunked, the
reference-audio prompt is attached only to the first segment's synthesis
call; every later call carries no prompt. -/
theorem claim_C8 (text : List Char) (hasPrompt : Bool)
    (h : MAX_DURATION_HARD_LIMIT < estimate_audio_duration text) :
    ∀ (i : Nat) (hi : i < (generate_audio_calls text hasPrompt).length),
      ((generate_audio_calls text hasPrompt).get ⟨i, hi⟩).withPrompt =
        (hasPrompt && decide (i = 0)) := by
  have hplan : ∀ (chunks : List (List Char)) (i0 j : Nat)
      (hj : j < (chunkCallPlan hasPrompt i0 chunks).length),
      ((chunkCallPlan hasPrompt i0 chunks).get ⟨j, hj⟩).withPrompt =
        (hasPrompt && decide (i0 + j = 0)) := by
    intro chunks
    induction chunks with
    | nil =>
      intro i0 j hj
      simp [chunkCallPlan] at hj
    | cons c rest ih =>
      intro i0 j hj
      match j with
      | 0 => simp [chunkCallPlan]
      | j + 1 =>
        have hj2 : j < (chunkCallPlan hasPrompt (i0 + 1) rest).length := by
          simpa [chunkCallPlan] using hj
        have := ih (i0 + 1) j hj2
        have harith : i0 + 1 + j = i0 + (j + 1) := by omega
        rw [harith] at this
        simpa [chunkCallPlan] using this
  have hlist : generate_audio_calls text hasPrompt =
      chunkCallPlan hasPrompt 0 (chunk_text_smartly text COMFORTABLE_DURATION) := by
    unfold generate_audio_calls
    rw [if_neg (not_le.mpr h)]
  intro i hi
  have hg := List.get_of_eq hlist ⟨i, hi⟩
  rw [hg]
  have := hplan (chunk_text_smartly text COMFORTABLE_DURATION) 0 i
    (by rw [← hlist]; exact hi)
  rw [Nat.zero_add] at this
  exact this

theorem claim_C8_witness :
    MAX_DURATION_HARD_LIMIT < estimate_audio_duration exDotToken ∧
    ((generate_audio_calls exDotToken true).get ⟨1, by decide⟩).withPrompt = false := by
  refine ⟨by decide, ?_⟩
  have h := claim_C8 exDotToken true (by decide) 1 (by decide)
  simpa using h

/-- C3 as stated is false on the code: with two submitted jobs of which the
second raises, both futures are resolved in order, but
`total_jobs_processed` rises by 1, not by N = 2, because the increment sits
inside the `try` block after `process_job` and is skipped on the exception
path. -/
theorem claim_C3_counterexample :
    (queue_consumer_run (⟨[], 0⟩ : WorkerState Nat)
        [.ok 0, .error "boom"]).resolved = [.ok 0, .error "boom"] ∧
    (queue_consumer_run (⟨[], 0⟩ : WorkerState Nat)
        [.ok 0, .error "boom"]).total_jobs_processed ≠ 2 := by
  exact ⟨rfl, by decide⟩

/-- C3 amended: for every finite job sequence, every job's future is
resolved in submission order with its outcome (failures included, none
dropped, the loop continuing past them), and `total_jobs_processed`
increases by exactly the number of successfully processed jobs. -/
theorem claim_C3_amended {α : Type} (jobs : List (Except String α)) :
    (queue_consumer_run (⟨[], 0⟩ : WorkerState α) jobs).resolved = jobs ∧
    (queue_consumer_run (⟨[], 0⟩ : WorkerState α) jobs).total_jobs_processed =
      (jobs.filter exceptOk).length := by
  rw [queue_consumer_run_spec]
  exact ⟨by simp, by simp⟩

/-- C4: the batch loop records one slot per text in array order; a failed
text yields `success=false`, the exception message, the default sample rate
and zero duration without stopping the loop; the batch result always has
`success=true`; and `total_duration` sums the successful durations only. -/
theorem claim_C4 (sr : Nat) (outcomes : List (Except String (String × ℚ))) :
    (process_batch_job sr outcomes).results = outcomes.map (batchSlot sr) ∧
    (∀ e : String, batchSlot sr (.error e) = ⟨false, none, some e, 22050, 0⟩) ∧
    (process_batch_job sr outcomes).success = true ∧
    (process_batch_job sr outcomes).total_duration =
      (outcomes.map okDuration).sum := by
  unfold process_batch_job
  rw [batchLoop_spec]
  exact ⟨by simp, fun e => rfl, rfl, by simp⟩

/-- C5 as stated is false on the code: `_concatenate_audio_files` never
inspects sample rates (its `sample_rate` parameter is unused), so two
waveforms with mismatched rates are concatenated without error. -/
theorem claim_C5_counterexample :
    (⟨[1], 22050⟩ : Waveform).sample_rate ≠ (⟨[2], 44100⟩ : Waveform).sample_rate ∧
    concatenate_audio_files [⟨[1], 22050⟩, ⟨[2], 44100⟩] =
      .ok ⟨[1, 2], 22050⟩ := by
  exact ⟨by decide, rfl⟩

/-- C5 amended: concatenation fails with an explicit `ValueError` exactly on
the empty list, returns an equal-valued copy for a single file, and succeeds
on every non-empty list — sample rates are never checked. -/
theorem claim_C5_amended (f : Waveform) (files : List Waveform) :
    concatenate_audio_files [] =
      .error "No audio files to concatenate" ∧
    concatenate_audio_files [f] = .ok f ∧
    ∃ w : Waveform, concatenate_audio_files (f :: files) = .ok w := by
  refine ⟨rfl, rfl, ?_⟩
  cases files with
  | nil => exact ⟨f, rfl⟩
  | cons g rest => exact ⟨_, rfl⟩

/-- C9 as stated is false on the code: "Hi there." normalizes to 9
characters, not 10, and the estimator returns 9/12 = 0.75 seconds, not
0.83. -/
theorem claim_C9_counterexample :
    char_count exHiThere ≠ 10 ∧
    estimate_audio_duration exHiThere ≠ 83 / 100 := by
  refine ⟨by decide, ?_⟩
  have h : estimate_audio_duration exHiThere = mkRat 9 12 := by decide
  rw [h, Rat.mkRat_eq_div]
  norm_num

/-- C9 amended: for "Hi there." the estimator counts 9 characters and
returns exactly 9/12 = 0.75 seconds, and the chunker returns the
single-element list holding the text itself. -/
theorem claim_C9_amended :
    char_count exHiThere = 9 ∧
    estimate_audio_duration exHiThere = 9 / 12 ∧
    chunk_text_smartly exHiThere COMFORTABLE_DURATION = [exHiThere] := by
  refine ⟨by decide, ?_, by decide⟩
  have h : estimate_audio_duration exHiThere = mkRat 9 12 := by decide
  rw [h, Rat.mkRat_eq_div]
  norm_num

/-- C10: in the gentle tier (estimate strictly above `comfortable_duration`
and at most the 40s hard limit), an input containing a double line break is
returned as the single trimmed segment: the paragraph accumulation compares
candidates against the hard limit, which the running concatenation never
exceeds, so the gentle result collapses and tier 2 falls back to the whole
text. -/
theorem claim_C10 (text u v : List Char) (comfortable_duration : ℚ)
    (hsep : text = u ++ '\n' :: '\n' :: v)
    (hgt : comfortable_duration < estimate_audio_duration text)
    (hle : estimate_audio_duration text ≤ MAX_DURATION_HARD_LIMIT) :
    chunk_text_smartly text comfortable_duration = [pyStrip text] := by
  unfold chunk_text_smartly
  rw [if_neg (not_le.mpr hgt), if_pos hle]
  have hpara := splitParas_two_of_sep hsep
  have hlen := try_gentle_chunking_len text comfortable_duration hle hpara
  rw [if_neg (by omega)]

theorem claim_C10_witness :
    exGentlePara = List.replicate 200 'a' ++ '\n' :: '\n' :: List.replicate 200 'b' ∧
    COMFORTABLE_DURATION < estimate_audio_duration exGentlePara ∧
    estimate_audio_duration exGentlePara ≤ MAX_DURATION_HARD_LIMIT ∧
    chunk_text_smartly exGentlePara COMFORTABLE_DURATION = [pyStrip exGentlePara] :=
  ⟨rfl, by decide, by decide,
    claim_C10 exGentlePara (List.replicate 200 'a') (List.replicate 200 'b')
      COMFORTABLE_DURATION rfl (by decide) (by decide)⟩
